import Mathlib

/-!
Verification of the dynamic-lru-cache engine (the `DynamicCacheLocal` type of
`src/lib.rs`).  The engine is shallowly embedded: the `HashMap` becomes an
association list, the `VecDeque` becomes a list whose head is the front of the
deque, the `u32` request counters wrap modulo `2 ^ 32`, the `u64` hit and miss
accumulators wrap modulo `2 ^ 64`, and every `expect` (a potential panic)
makes the corresponding operation return `none`.
-/

set_option maxHeartbeats 1000000

namespace DynLru

/-- Modulus of the unsigned 32-bit request counters of the cache. -/
def u32Mod : Nat := 4294967296

/-- Modulus of the unsigned 64-bit hit and miss accumulators of the cache. -/
def u64Mod : Nat := 18446744073709551616

/-- Clamp of a requested window length, mirroring
`mem_len.clamp(2, u32::MAX as usize)` from `new`, `with_hasher` and
`set_mem_len` in `src/lib.rs`. -/
def clampLen (n : Nat) : Nat := max 2 (min n (u32Mod - 1))

/-- The cache engine state, mirroring `struct DynamicCacheLocal` from
`src/lib.rs`: `map: HashMap<K,(u32, Option<Arc<V>>)>` as an association list,
`list: VecDeque<(K,u32)>` as a list with the front of the deque first,
and the `mem_len`, `size`, `hits` and `misses` fields.  The `Arc<V>` handle
is modeled by the value itself (cloning an `Arc` yields the same value). -/
structure DynamicCacheLocal (K V : Type) where
  map : List (K × Nat × Option V)
  list : List (K × Nat)
  mem_len : Nat
  size : Nat
  hits : Nat
  misses : Nat
deriving DecidableEq

variable {K V : Type} [DecidableEq K]

/-- Model of `HashMap::get` on the association-list map. -/
def mapGet : List (K × Nat × Option V) → K → Option (Nat × Option V)
  | [], _ => none
  | e :: rest, k => if e.1 = k then some e.2 else mapGet rest k

/-- Model of `HashMap::insert` (replace the entry if present, append it otherwise). -/
def mapSet : List (K × Nat × Option V) → K → Nat × Option V → List (K × Nat × Option V)
  | [], k, cv => [(k, cv)]
  | e :: rest, k, cv => if e.1 = k then (k, cv) :: rest else e :: mapSet rest k cv

/-- Model of `HashMap::remove` (drop the entry with the given key). -/
def mapRemove : List (K × Nat × Option V) → K → List (K × Nat × Option V)
  | [], _ => []
  | e :: rest, k => if e.1 = k then rest else e :: mapRemove rest k

/-- The keys of the map, in association-list order. -/
def mapKeys (m : List (K × Nat × Option V)) : List K := m.map (fun e => e.1)

/-- The keys recorded in the window, front first. -/
def listKeys (l : List (K × Nat)) : List K := l.map (fun e => e.1)

/-- The number of map entries whose cached value is present; this is the
quantity that the `size` field is meant to track. -/
def cacheCount (m : List (K × Nat × Option V)) : Nat :=
  (m.filter (fun e => e.2.2.isSome)).length

/-- The counter snapshots recorded in the window for one key, front first. -/
def entriesFor : List (K × Nat) → K → List Nat
  | [], _ => []
  | e :: l, k => if e.1 = k then e.2 :: entriesFor l k else entriesFor l k

/-- Value of `(cnt - j) mod 2 ^ 32`, the snapshot a key with current counter `cnt`
would have recorded `j` requests ago. -/
def snapAt (cnt j : Nat) : Nat := (cnt + u32Mod - j % u32Mod) % u32Mod

/-- A snapshot list is aligned with counter `cnt` at offset `d`: the entry at
position `i` (front first) is `(cnt - i - d) mod 2 ^ 32`. -/
def Aligned (E : List Nat) (cnt d : Nat) : Prop :=
  ∀ i, (h : i < E.length) → E.get ⟨i, h⟩ = snapAt cnt (i + d)

/-- Step 1 of `DynamicCacheLocal::get`: look the key up, increment its counter
(or create the entry with counter `0` and no value), and report the counter to
record together with the hit value, mirroring the `match self.map.get_mut(key)`
block of `get` in `src/lib.rs`. -/
def touch (c : DynamicCacheLocal K V) (key : K) :
    Nat × Option V × DynamicCacheLocal K V :=
  match mapGet c.map key with
  | some (cnt, some v) =>
      ((cnt + 1) % u32Mod, some v,
        { c with map := mapSet c.map key ((cnt + 1) % u32Mod, some v) })
  | some (cnt, none) =>
      ((cnt + 1) % u32Mod, none,
        { c with map := mapSet c.map key ((cnt + 1) % u32Mod, none) })
  | none => (0, none, { c with map := mapSet c.map key (0, none) })

/-- The back-eviction step shared by `get` and `set_mem_len` in `src/lib.rs`:
pop the back window entry, look its key up in the map (`none` models the
`expect` panics), and remove the key from the map — decrementing `size` if a
value was stored — exactly when its current counter equals the popped
snapshot. -/
def evictBack (c : DynamicCacheLocal K V) : Option (DynamicCacheLocal K V) :=
  match c.list.getLast? with
  | none => none
  | some (k0, last_count) =>
    match mapGet c.map k0 with
    | none => none
    | some (cnt0, val0) =>
      if cnt0 = last_count then
        some { c with size := if val0.isSome then c.size - 1 else c.size,
                      map := mapRemove c.map k0,
                      list := c.list.dropLast }
      else some { c with list := c.list.dropLast }

/-- The `if self.list.len() == self.mem_len` guard around the eviction in
`get`. -/
def maybeEvict (c : DynamicCacheLocal K V) : Option (DynamicCacheLocal K V) :=
  if c.list.length = c.mem_len then evictBack c else some c

/-- The hit/miss accounting at the end of `get`. -/
def bump (ret : Option V) (c : DynamicCacheLocal K V) : DynamicCacheLocal K V :=
  if ret.isSome then { c with hits := (c.hits + 1) % u64Mod }
  else { c with misses := (c.misses + 1) % u64Mod }

/-- Model of `DynamicCacheLocal::get` from `src/lib.rs`: touch the key, evict the back
window entry when the window is at capacity, push the new window entry to the
front, and record a hit or a miss.  A `none` result models a panic of one of
the internal `expect`s. -/
def get (c : DynamicCacheLocal K V) (key : K) :
    Option (Option V × DynamicCacheLocal K V) :=
  match touch c key with
  | (cnt, ret, c1) =>
    match maybeEvict c1 with
    | none => none
    | some c2 => some (ret, bump ret { c2 with list := (key, cnt) :: c2.list })

/-- Model of `DynamicCacheLocal::insert` from `src/lib.rs`.  A `none` result models the
panic of `self.map.get_mut(key).expect(..)` when the key is absent. -/
def insert (c : DynamicCacheLocal K V) (key : K) (v : V) :
    Option (V × DynamicCacheLocal K V) :=
  match mapGet c.map key with
  | none => none
  | some (cnt, val) =>
    if cnt = 0 then some (v, c)
    else
      match val with
      | some w => some (w, c)
      | none =>
        some (v, { c with map := mapSet c.map key (cnt, some v),
                          size := c.size + 1 })

/-- Model of `DynamicCacheLocal::get_or_insert` from `src/lib.rs`, with the producer
`f` modeled by the value it returns:
`self.get(key).unwrap_or_else(|| self.insert(key, f()))`. -/
def get_or_insert (c : DynamicCacheLocal K V) (key : K) (v : V) :
    Option (V × DynamicCacheLocal K V) :=
  match get c key with
  | none => none
  | some (some w, c') => some (w, c')
  | some (none, c') => insert c' key v

/-- Variant of `get_or_insert` with a fallible producer: `f = none` models a producer
that fails (panics) before producing a value.  In that case the call stops
after the `get` and the state at the moment of the failure — the post-`get`
state — is reported in the `Except.error`. -/
def get_or_insert_fb (c : DynamicCacheLocal K V) (key : K) (f : Option V) :
    Option (Except (DynamicCacheLocal K V) (V × DynamicCacheLocal K V)) :=
  match get c key with
  | none => none
  | some (some w, c') => some (Except.ok (w, c'))
  | some (none, c') =>
    match f with
    | none => some (Except.error c')
    | some fv =>
      match insert c' key fv with
      | none => none
      | some r => some (Except.ok r)

/-- A successful back-eviction step always shortens the window; this justifies
the termination of the `while self.list.len() > new_len` loop of
`set_mem_len`. -/
def evictBack_shrinks : ∀ {c c2 : DynamicCacheLocal K V},
    evictBack c = some c2 → c2.list.length < c.list.length := by
  intro c c2 h2
  have hpos : 0 < c.list.length := by
    rcases hl : c.list with _ | ⟨e, l⟩
    · exfalso
      unfold evictBack at h2
      rw [hl] at h2
      simp at h2
    · simp
  unfold evictBack at h2
  split at h2
  · exact absurd h2 (by simp)
  · split at h2
    · exact absurd h2 (by simp)
    · split at h2 <;>
      · cases h2
        simp only [List.length_dropLast]
        omega

/-- The `while self.list.len() > new_len` eviction loop of `set_mem_len`. -/
def shrink (c : DynamicCacheLocal K V) (n : Nat) :
    Option (DynamicCacheLocal K V) :=
  if h : n < c.list.length then
    match h2 : evictBack c with
    | none => none
    | some c2 => shrink c2 n
  else some c
termination_by c.list.length
decreasing_by exact evictBack_shrinks h2

/-- Model of `DynamicCacheLocal::set_mem_len` from `src/lib.rs`: clamp the new length,
run the eviction loop, then store the new length. -/
def set_mem_len (c : DynamicCacheLocal K V) (new_len : Nat) :
    Option (DynamicCacheLocal K V) :=
  match shrink c (clampLen new_len) with
  | none => none
  | some c2 => some { c2 with mem_len := clampLen new_len }

/-- Model of `DynamicCacheLocal::clear_cache` from `src/lib.rs`. -/
def clear_cache (c : DynamicCacheLocal K V) : DynamicCacheLocal K V :=
  { c with size := 0, map := [], list := [] }

/-- Model of `DynamicCacheLocal::reset_metrics` from `src/lib.rs`. -/
def reset_metrics (c : DynamicCacheLocal K V) : DynamicCacheLocal K V :=
  { c with hits := 0, misses := 0 }

/-- Model of `DynamicCacheLocal::new` from `src/lib.rs`. -/
def new (mem_len : Nat) : DynamicCacheLocal K V :=
  { map := [], list := [], mem_len := clampLen mem_len,
    size := 0, hits := 0, misses := 0 }

/-- Model of `DynamicCacheLocal::with_hasher` from `src/lib.rs`; the hash builder does
not influence the association-list model. -/
def with_hasher {S : Type} (mem_len : Nat) (_hash_builder : S) :
    DynamicCacheLocal K V :=
  { map := [], list := [], mem_len := clampLen mem_len,
    size := 0, hits := 0, misses := 0 }

/-- One engine operation, used to describe the reachable states. -/
inductive Op (K V : Type) where
  | get : K → Op K V
  | insert : K → V → Op K V
  | get_or_insert : K → V → Op K V
  | set_mem_len : Nat → Op K V
  | clear_cache : Op K V
  | reset_metrics : Op K V

/-- Apply one operation; `none` models a panic, which produces no new state. -/
def applyOp : Op K V → DynamicCacheLocal K V → Option (DynamicCacheLocal K V)
  | Op.get k, c => (get c k).map (fun r => r.2)
  | Op.insert k v, c => (insert c k v).map (fun r => r.2)
  | Op.get_or_insert k v, c => (get_or_insert c k v).map (fun r => r.2)
  | Op.set_mem_len n, c => set_mem_len c n
  | Op.clear_cache, c => some (clear_cache c)
  | Op.reset_metrics, c => some (reset_metrics c)

/-- The states reachable from a freshly constructed cache by any sequence of
engine operations (`with_hasher` produces the same state as `new`). -/
inductive Reachable : DynamicCacheLocal K V → Prop where
  | base : ∀ n, Reachable (new n)
  | step : ∀ {c c' : DynamicCacheLocal K V} (op : Op K V),
      Reachable c → applyOp op c = some c' → Reachable c'

/-- Run a sequence of `get` calls, failing if any of them panics. -/
def runGets : List K → DynamicCacheLocal K V → Option (DynamicCacheLocal K V)
  | [], c => some c
  | k :: rest, c =>
    match get c k with
    | none => none
    | some (_, c') => runGets rest c'

/-- The cache state after `n` consecutive `get` calls for the key `0` on a
cache built by `new 2` (for `2 ≤ n`): the single tracked key has counter
`(n - 1) mod 2 ^ 32` and the two window entries hold the last two snapshots. -/
def fState (n : Nat) : DynamicCacheLocal Nat Nat :=
  { map := [(0, ((n - 1) % u32Mod, none))]
  , list := [(0, (n - 1) % u32Mod), (0, (n - 2) % u32Mod)]
  , mem_len := 2, size := 0, hits := 0, misses := n }

/-- The well-formedness invariant of the engine state.  Besides the documented
invariants (window bounded by `mem_len`, clamped `mem_len`, `size` equal to
the number of cached values, window keys present in the map) it records the
alignment facts that make the counter-comparison eviction rule sound: every
tracked key has at least one window entry, and the snapshots of its window
entries, front first, are `cnt, cnt - 1, cnt - 2, ...` modulo `2 ^ 32`. -/
structure WF (c : DynamicCacheLocal K V) : Prop where
  nodup : (mapKeys c.map).Nodup
  len_le : c.list.length ≤ c.mem_len
  two_le : 2 ≤ c.mem_len
  le_max : c.mem_len ≤ u32Mod - 1
  size_eq : c.size = cacheCount c.map
  keys_sub : ∀ k, k ∈ listKeys c.list → k ∈ mapKeys c.map
  aligned : ∀ k cnt v, mapGet c.map k = some (cnt, v) →
    cnt < u32Mod ∧ entriesFor c.list k ≠ [] ∧ Aligned (entriesFor c.list k) cnt 0

/-! ### Arithmetic facts about wrapped snapshots -/

theorem u32Mod_pos : 0 < u32Mod := by simp [u32Mod]

theorem snapAt_lt (cnt j : Nat) : snapAt cnt j < u32Mod :=
  Nat.mod_lt _ u32Mod_pos

theorem snapAt_zero {cnt : Nat} (h : cnt < u32Mod) : snapAt cnt 0 = cnt := by
  simp only [snapAt, u32Mod] at *
  omega

theorem snapAt_succ (cnt j : Nat) :
    snapAt ((cnt + 1) % u32Mod) (j + 1) = snapAt cnt j := by
  simp only [snapAt, u32Mod]
  omega

theorem snapAt_eq_self_iff {cnt : Nat} (h : cnt < u32Mod) (j : Nat) :
    snapAt cnt j = cnt ↔ j % u32Mod = 0 := by
  simp only [snapAt, u32Mod] at *
  omega

/-! ### Association-list lemmas -/

theorem mapKeys_nil : mapKeys ([] : List (K × Nat × Option V)) = [] := rfl

theorem mapKeys_cons (e : K × Nat × Option V) (rest : List (K × Nat × Option V)) :
    mapKeys (e :: rest) = e.1 :: mapKeys rest := rfl

theorem mem_mapKeys_of_mapGet {m : List (K × Nat × Option V)} {k : K}
    {cv : Nat × Option V} (h : mapGet m k = some cv) : k ∈ mapKeys m := by
  induction m with
  | nil => simp [mapGet] at h
  | cons e rest ih =>
    rw [mapKeys_cons, List.mem_cons]
    rw [mapGet] at h
    by_cases he : e.1 = k
    · exact Or.inl he.symm
    · rw [if_neg he] at h
      exact Or.inr (ih h)

theorem mapGet_eq_none {m : List (K × Nat × Option V)} {k : K}
    (h : k ∉ mapKeys m) : mapGet m k = none := by
  induction m with
  | nil => rfl
  | cons e rest ih =>
    rw [mapKeys_cons, List.mem_cons] at h
    push_neg at h
    rw [mapGet, if_neg (fun he => h.1 he.symm)]
    exact ih h.2

theorem mapGet_isSome_of_mem {m : List (K × Nat × Option V)} {k : K}
    (h : k ∈ mapKeys m) : ∃ cv, mapGet m k = some cv := by
  induction m with
  | nil => simp [mapKeys] at h
  | cons e rest ih =>
    rw [mapKeys_cons, List.mem_cons] at h
    by_cases he : e.1 = k
    · exact ⟨e.2, by rw [mapGet, if_pos he]⟩
    · rcases h with h | h
      · exact absurd h.symm he
      · rcases ih h with ⟨cv, hcv⟩
        exact ⟨cv, by rw [mapGet, if_neg he, hcv]⟩

theorem mapGet_mapSet_self (m : List (K × Nat × Option V)) (k : K)
    (cv : Nat × Option V) : mapGet (mapSet m k cv) k = some cv := by
  induction m with
  | nil => simp [mapSet, mapGet]
  | cons e rest ih =>
    by_cases he : e.1 = k
    · rw [mapSet, if_pos he, mapGet, if_pos rfl]
    · rw [mapSet, if_neg he, mapGet, if_neg he, ih]

theorem mapGet_mapSet_ne (m : List (K × Nat × Option V)) {k k' : K}
    (hne : k' ≠ k) (cv : Nat × Option V) :
    mapGet (mapSet m k cv) k' = mapGet m k' := by
  induction m with
  | nil =>
    have h1 : ¬(k = k') := fun h => hne h.symm
    simp [mapSet, mapGet, h1]
  | cons e rest ih =>
    by_cases he : e.1 = k
    · have h1 : ¬(k = k') := fun h => hne h.symm
      have h2 : ¬(e.1 = k') := fun h => hne (he.symm.trans h).symm
      simp [mapSet, he, mapGet, h1, h2]
    · simp [mapSet, he, mapGet, ih]

theorem mapKeys_mapSet_of_mem {m : List (K × Nat × Option V)} {k : K}
    (h : k ∈ mapKeys m) (cv : Nat × Option V) :
    mapKeys (mapSet m k cv) = mapKeys m := by
  induction m with
  | nil => simp [mapKeys] at h
  | cons e rest ih =>
    rw [mapKeys_cons, List.mem_cons] at h
    by_cases he : e.1 = k
    · rw [mapSet, if_pos he, mapKeys_cons, mapKeys_cons, he]
    · rcases h with h | h
      · exact absurd h.symm he
      · rw [mapSet, if_neg he, mapKeys_cons, mapKeys_cons, ih h]

theorem mapKeys_mapSet_of_not_mem {m : List (K × Nat × Option V)} {k : K}
    (h : k ∉ mapKeys m) (cv : Nat × Option V) :
    mapKeys (mapSet m k cv) = mapKeys m ++ [k] := by
  induction m with
  | nil => rfl
  | cons e rest ih =>
    rw [mapKeys_cons, List.mem_cons] at h
    push_neg at h
    rw [mapSet, if_neg (fun he => h.1 he.symm), mapKeys_cons, mapKeys_cons,
      ih h.2, List.cons_append]

theorem mapGet_mapRemove_ne (m : List (K × Nat × Option V)) {k k' : K}
    (hne : k' ≠ k) : mapGet (mapRemove m k) k' = mapGet m k' := by
  induction m with
  | nil => rfl
  | cons e rest ih =>
    by_cases he : e.1 = k
    · rw [mapRemove, if_pos he, mapGet,
        if_neg (fun h : e.1 = k' => hne (he.symm.trans h).symm)]
    · rw [mapRemove, if_neg he, mapGet, mapGet, ih]

theorem mapKeys_mapRemove_sublist (m : List (K × Nat × Option V)) (k : K) :
    List.Sublist (mapKeys (mapRemove m k)) (mapKeys m) := by
  induction m with
  | nil => exact List.Sublist.refl _
  | cons e rest ih =>
    by_cases he : e.1 = k
    · rw [mapRemove, if_pos he, mapKeys_cons]
      exact List.sublist_cons_self _ _
    · rw [mapRemove, if_neg he, mapKeys_cons, mapKeys_cons]
      exact List.Sublist.cons₂ _ ih

theorem mapGet_mapRemove_self {m : List (K × Nat × Option V)} {k : K}
    (hnd : (mapKeys m).Nodup) : mapGet (mapRemove m k) k = none := by
  induction m with
  | nil => rfl
  | cons e rest ih =>
    rw [mapKeys_cons] at hnd
    rcases List.nodup_cons.mp hnd with ⟨h1, h2⟩
    by_cases he : e.1 = k
    · rw [mapRemove, if_pos he]
      exact mapGet_eq_none (by rw [← he]; exact h1)
    · rw [mapRemove, if_neg he, mapGet, if_neg he]
      exact ih h2

/-! ### Window-list and alignment lemmas -/

theorem listKeys_cons (e : K × Nat) (l : List (K × Nat)) :
    listKeys (e :: l) = e.1 :: listKeys l := rfl

theorem listKeys_append (l1 l2 : List (K × Nat)) :
    listKeys (l1 ++ l2) = listKeys l1 ++ listKeys l2 := by
  simp [listKeys]

theorem entriesFor_append (l1 l2 : List (K × Nat)) (k : K) :
    entriesFor (l1 ++ l2) k = entriesFor l1 k ++ entriesFor l2 k := by
  induction l1 with
  | nil => rfl
  | cons e rest ih =>
    by_cases he : e.1 = k <;>
      simp [entriesFor, he, ih]

theorem mem_listKeys_iff {l : List (K × Nat)} {k : K} :
    k ∈ listKeys l ↔ entriesFor l k ≠ [] := by
  induction l with
  | nil => simp [listKeys, entriesFor]
  | cons e rest ih =>
    rw [listKeys_cons, List.mem_cons]
    by_cases he : e.1 = k
    · simp [entriesFor, he]
    · rw [entriesFor, if_neg he, ← ih]
      simp
      intro h
      exact absurd h.symm he

theorem entriesFor_length_le (l : List (K × Nat)) (k : K) :
    (entriesFor l k).length ≤ l.length := by
  induction l with
  | nil => simp [entriesFor]
  | cons e rest ih =>
    by_cases he : e.1 = k <;> simp [entriesFor, he] <;> omega

theorem aligned_nil (cnt d : Nat) : Aligned [] cnt d := by
  intro i h
  simp at h

theorem aligned_of_append {E1 E2 : List Nat} {cnt d : Nat}
    (h : Aligned (E1 ++ E2) cnt d) : Aligned E1 cnt d := by
  intro i hi
  have hi' : i < (E1 ++ E2).length := by
    simp
    omega
  have h2 := h i hi'
  simp only [List.get_eq_getElem, Fin.val_mk] at h2 ⊢
  rwa [List.getElem_append_left hi] at h2

theorem aligned_last {E : List Nat} {s cnt d : Nat}
    (h : Aligned (E ++ [s]) cnt d) : s = snapAt cnt (E.length + d) := by
  have hl : E.length < (E ++ [s]).length := by simp
  have h2 := h E.length hl
  simp only [List.get_eq_getElem, Fin.val_mk] at h2
  rwa [List.getElem_concat_length] at h2
  rfl

theorem aligned_cons {E : List Nat} {cnt d s : Nat}
    (hs : s = snapAt cnt d) (h : Aligned E cnt (d + 1)) :
    Aligned (s :: E) cnt d := by
  intro i hi
  cases i with
  | zero => simpa using hs
  | succ j =>
    have hj : j < E.length := by simpa using hi
    have h2 := h j hj
    simp only [List.get_eq_getElem, Fin.val_mk] at h2 ⊢
    rw [List.getElem_cons_succ, h2]
    congr 1
    omega

theorem aligned_shift {E : List Nat} {cnt d : Nat} (h : Aligned E cnt d) :
    Aligned E ((cnt + 1) % u32Mod) (d + 1) := by
  intro i hi
  rw [h i hi]
  have : i + (d + 1) = (i + d) + 1 := by omega
  rw [this, snapAt_succ]

/-! ### Counting lemmas for the size field -/

theorem cacheCount_cons (e : K × Nat × Option V) (rest : List (K × Nat × Option V)) :
    cacheCount (e :: rest) = (if e.2.2.isSome then 1 else 0) + cacheCount rest := by
  by_cases hb : e.2.2.isSome
  · simp [cacheCount, List.filter_cons, hb]
    omega
  · simp [cacheCount, List.filter_cons, hb]

theorem cacheCount_mapSet_same {m : List (K × Nat × Option V)} {k : K}
    {cnt0 : Nat} {v0 : Option V} (h : mapGet m k = some (cnt0, v0))
    (cnt : Nat) (v : Option V) (hv : v.isSome = v0.isSome) :
    cacheCount (mapSet m k (cnt, v)) = cacheCount m := by
  induction m with
  | nil => simp [mapGet] at h
  | cons e rest ih =>
    rw [mapGet] at h
    by_cases he : e.1 = k
    · rw [if_pos he] at h
      have hE : e.2 = (cnt0, v0) := Option.some.inj h
      rw [mapSet, if_pos he, cacheCount_cons, cacheCount_cons, hE]
      simp [hv]
    · rw [if_neg he] at h
      rw [mapSet, if_neg he, cacheCount_cons, cacheCount_cons, ih h]

theorem cacheCount_mapSet_new {m : List (K × Nat × Option V)} {k : K}
    (h : mapGet m k = none) (cnt : Nat) :
    cacheCount (mapSet m k (cnt, (none : Option V))) = cacheCount m := by
  induction m with
  | nil => simp [mapSet, cacheCount]
  | cons e rest ih =>
    rw [mapGet] at h
    by_cases he : e.1 = k
    · rw [if_pos he] at h
      cases h
    · rw [if_neg he] at h
      rw [mapSet, if_neg he, cacheCount_cons, cacheCount_cons, ih h]

theorem cacheCount_mapSet_promote {m : List (K × Nat × Option V)} {k : K}
    {cnt0 : Nat} (h : mapGet m k = some (cnt0, (none : Option V)))
    (cnt : Nat) (v : V) :
    cacheCount (mapSet m k (cnt, some v)) = cacheCount m + 1 := by
  induction m with
  | nil => simp [mapGet] at h
  | cons e rest ih =>
    rw [mapGet] at h
    by_cases he : e.1 = k
    · rw [if_pos he] at h
      have hE : e.2 = (cnt0, none) := Option.some.inj h
      rw [mapSet, if_pos he, cacheCount_cons, cacheCount_cons, hE]
      simp
      omega
    · rw [if_neg he] at h
      rw [mapSet, if_neg he, cacheCount_cons, cacheCount_cons, ih h]
      omega

theorem cacheCount_mapRemove {m : List (K × Nat × Option V)} {k : K}
    {cnt0 : Nat} {v0 : Option V} (h : mapGet m k = some (cnt0, v0)) :
    cacheCount (mapRemove m k) + (if v0.isSome then 1 else 0) = cacheCount m := by
  induction m with
  | nil => simp [mapGet] at h
  | cons e rest ih =>
    rw [mapGet] at h
    by_cases he : e.1 = k
    · rw [if_pos he] at h
      have hE : e.2 = (cnt0, v0) := Option.some.inj h
      rw [mapRemove, if_pos he, cacheCount_cons, hE]
      by_cases hv0 : v0.isSome <;> simp [hv0] <;> omega
    · rw [if_neg he] at h
      rw [mapRemove, if_neg he, cacheCount_cons, cacheCount_cons]
      have := ih h
      omega

/-! ### The back-eviction step -/

theorem concat_decomp {l : List (K × Nat)} (h : l ≠ []) :
    ∃ l' e, l = l' ++ [e] := by
  rcases List.eq_nil_or_concat l with h1 | ⟨L, b, h1⟩
  · exact absurd h1 h
  · exact ⟨L, b, by simpa [List.concat_eq_append] using h1⟩

theorem mem_mapKeys_mapRemove {m : List (K × Nat × Option V)} {k k0 : K}
    (hk : k ≠ k0) (h : k ∈ mapKeys m) : k ∈ mapKeys (mapRemove m k0) := by
  obtain ⟨cv, hcv⟩ := mapGet_isSome_of_mem h
  exact mem_mapKeys_of_mapGet
    (show mapGet (mapRemove m k0) k = some cv by rw [mapGet_mapRemove_ne m hk, hcv])

/-- The generalized invariant-preservation lemma for one back-eviction step.
`tk` designates the key (if any) whose counter was just incremented by the
first phase of `get` but whose new window entry has not yet been pushed; its
snapshots are aligned at offset 1, every other tracked key has a nonempty,
offset-0-aligned snapshot list. -/
theorem evict_step_main {c : DynamicCacheLocal K V} (tk : Option K)
    (hne : c.list ≠ [])
    (hlistM : c.list.length ≤ u32Mod - 1)
    (hnd : (mapKeys c.map).Nodup)
    (hsz : c.size = cacheCount c.map)
    (hsub : ∀ k, k ∈ listKeys c.list → k ∈ mapKeys c.map)
    (hcnt : ∀ k cnt v, mapGet c.map k = some (cnt, v) → cnt < u32Mod ∧
      (tk = some k → Aligned (entriesFor c.list k) cnt 1) ∧
      (tk ≠ some k → entriesFor c.list k ≠ [] ∧ Aligned (entriesFor c.list k) cnt 0)) :
    ∃ c2, evictBack c = some c2 ∧
      c2.list = c.list.dropLast ∧
      c2.mem_len = c.mem_len ∧ c2.hits = c.hits ∧ c2.misses = c.misses ∧
      c2.size ≤ c.size ∧
      (∀ k, mapGet c2.map k = mapGet c.map k ∨ mapGet c2.map k = none) ∧
      (∀ k, tk = some k → mapGet c2.map k = mapGet c.map k) ∧
      (mapKeys c2.map).Nodup ∧
      c2.size = cacheCount c2.map ∧
      (∀ k, k ∈ listKeys c2.list → k ∈ mapKeys c2.map) ∧
      (∀ k cnt v, mapGet c2.map k = some (cnt, v) → cnt < u32Mod ∧
        (tk = some k → Aligned (entriesFor c2.list k) cnt 1) ∧
        (tk ≠ some k → entriesFor c2.list k ≠ [] ∧ Aligned (entriesFor c2.list k) cnt 0)) := by
  obtain ⟨l', e, hdec⟩ := concat_decomp hne
  obtain ⟨k0, s⟩ := e
  have hlast : c.list.getLast? = some (k0, s) := by
    rw [hdec]
    exact List.getLast?_concat _
  have hdrop : c.list.dropLast = l' := by
    rw [hdec]
    exact List.dropLast_concat
  have hk0mem : k0 ∈ listKeys c.list := by
    rw [hdec, listKeys_append]
    simp [listKeys]
  obtain ⟨⟨cnt0, v0⟩, hm0⟩ := mapGet_isSome_of_mem (hsub k0 hk0mem)
  have hE : entriesFor c.list k0 = entriesFor l' k0 ++ [s] := by
    rw [hdec, entriesFor_append]
    simp [entriesFor]
  have hEne : ∀ k, k ≠ k0 → entriesFor l' k = entriesFor c.list k := by
    intro k hk
    have hne0 : ¬(k0 = k) := fun h => hk h.symm
    rw [hdec, entriesFor_append]
    simp [entriesFor, hne0]
  have hlenE : (entriesFor l' k0).length + 1 ≤ c.list.length := by
    have h1 := entriesFor_length_le c.list k0
    rw [hE] at h1
    simpa using h1
  obtain ⟨hc0lt, htk0, hntk0⟩ := hcnt k0 cnt0 v0 hm0
  by_cases hcs : cnt0 = s
  · -- the popped snapshot matches the counter: the key is removed
    have htkne : tk ≠ some k0 := by
      intro htk
      have hal := htk0 htk
      rw [hE] at hal
      have hs' := aligned_last hal
      rw [← hcs] at hs'
      have hmod := (snapAt_eq_self_iff hc0lt _).mp hs'.symm
      simp only [u32Mod] at hmod hlistM
      omega
    obtain ⟨hEne0, hal0⟩ := hntk0 htkne
    rw [hE] at hal0
    have hs0 := aligned_last hal0
    have hL0 : entriesFor l' k0 = [] := by
      rw [← hcs] at hs0
      have hmod := (snapAt_eq_self_iff hc0lt _).mp hs0.symm
      simp only [u32Mod] at hmod hlistM
      have hz : (entriesFor l' k0).length = 0 := by omega
      exact List.length_eq_zero.mp hz
    refine ⟨({ c with
              size := (if v0.isSome then c.size - 1 else c.size)
              map := mapRemove c.map k0
              list := c.list.dropLast } : DynamicCacheLocal K V),
      ?_, rfl, rfl, rfl, rfl, ?_, ?_, ?_, ?_, ?_, ?_, ?_⟩
    · simp only [evictBack, hlast, hm0]
      rw [if_pos hcs]
    · by_cases hv : v0.isSome <;> simp [hv]
    · intro k
      by_cases hk : k = k0
      · subst hk
        exact Or.inr (mapGet_mapRemove_self hnd)
      · exact Or.inl (mapGet_mapRemove_ne c.map hk)
    · intro k htk
      have hk : k ≠ k0 := by
        intro h
        rw [h] at htk
        exact htkne htk
      exact mapGet_mapRemove_ne c.map hk
    · exact (mapKeys_mapRemove_sublist c.map k0).nodup hnd
    · have hcr := cacheCount_mapRemove hm0
      by_cases hv : v0.isSome <;> simp [hv] at hcr ⊢ <;> omega
    · intro k hk
      rw [hdrop] at hk
      have hkne : k ≠ k0 := by
        intro h
        subst h
        rw [mem_listKeys_iff, hL0] at hk
        exact hk rfl
      refine mem_mapKeys_mapRemove hkne (hsub k ?_)
      rw [hdec, listKeys_append]
      exact List.mem_append_left _ hk
    · intro k cnt v hg
      have hkne : k ≠ k0 := by
        intro h
        subst h
        rw [mapGet_mapRemove_self hnd] at hg
        cases hg
      rw [mapGet_mapRemove_ne c.map hkne] at hg
      obtain ⟨hlt, h1, h2⟩ := hcnt k cnt v hg
      have hEk : entriesFor c.list.dropLast k = entriesFor c.list k := by
        rw [hdrop]
        exact hEne k hkne
      refine ⟨hlt, ?_, ?_⟩
      · intro htk
        rw [hEk]
        exact h1 htk
      · intro htk
        rw [hEk]
        exact h2 htk
  · -- the counter moved on: the window entry is stale, the map is untouched
    refine ⟨{ c with list := c.list.dropLast },
      ?_, rfl, rfl, rfl, rfl, le_refl _, fun k => Or.inl rfl, fun k _ => rfl,
      hnd, hsz, ?_, ?_⟩
    · simp only [evictBack, hlast, hm0]
      rw [if_neg hcs]
    · intro k hk
      rw [hdrop] at hk
      refine hsub k ?_
      rw [hdec, listKeys_append]
      exact List.mem_append_left _ hk
    · intro k cnt v hg
      obtain ⟨hlt, h1, h2⟩ := hcnt k cnt v hg
      by_cases hkne : k = k0
      · subst hkne
        -- the popped entry belongs to k itself: its snapshot list loses its
        -- last element but stays aligned, and stays nonempty at offset 0
        rw [hm0] at hg
        have hpair := Option.some.inj hg
        simp only [Prod.mk.injEq] at hpair
        obtain ⟨hc', hv'⟩ := hpair
        subst hc'
        subst hv'
        refine ⟨hlt, ?_, ?_⟩
        · intro htk
          have hal := h1 htk
          rw [hE] at hal
          show Aligned (entriesFor c.list.dropLast k) cnt0 1
          rw [hdrop]
          exact aligned_of_append hal
        · intro htk
          obtain ⟨_, hal⟩ := h2 htk
          rw [hE] at hal
          constructor
          · show entriesFor c.list.dropLast k ≠ []
            rw [hdrop]
            intro hnil
            rw [hnil] at hal
            have hs0 := aligned_last hal
            simp only [List.length_nil, Nat.add_zero, Nat.zero_add] at hs0
            rw [snapAt_zero hc0lt] at hs0
            exact hcs hs0.symm
          · show Aligned (entriesFor c.list.dropLast k) cnt0 0
            rw [hdrop]
            exact aligned_of_append hal
      · have hEk : entriesFor c.list.dropLast k = entriesFor c.list k := by
          rw [hdrop]
          exact hEne k hkne
        refine ⟨hlt, ?_, ?_⟩
        · intro htk
          show Aligned (entriesFor c.list.dropLast k) cnt 1
          rw [hEk]
          exact h1 htk
        · intro htk
          obtain ⟨hn, hal⟩ := h2 htk
          refine ⟨?_, ?_⟩
          · show entriesFor c.list.dropLast k ≠ []
            rw [hEk]
            exact hn
          · show Aligned (entriesFor c.list.dropLast k) cnt 0
            rw [hEk]
            exact hal

/-! ### Facts about the pieces of `get` -/

theorem entriesFor_cons_self (k : K) (s : Nat) (l : List (K × Nat)) :
    entriesFor ((k, s) :: l) k = s :: entriesFor l k := by
  rw [entriesFor, if_pos rfl]

theorem entriesFor_cons_ne {k0 k : K} (h : k0 ≠ k) (s : Nat) (l : List (K × Nat)) :
    entriesFor ((k0, s) :: l) k = entriesFor l k := by
  rw [entriesFor, if_neg h]

theorem bump_map (r : Option V) (c : DynamicCacheLocal K V) :
    (bump r c).map = c.map := by
  rw [bump]
  split <;> rfl

theorem bump_list (r : Option V) (c : DynamicCacheLocal K V) :
    (bump r c).list = c.list := by
  rw [bump]
  split <;> rfl

theorem bump_mem_len (r : Option V) (c : DynamicCacheLocal K V) :
    (bump r c).mem_len = c.mem_len := by
  rw [bump]
  split <;> rfl

theorem bump_size (r : Option V) (c : DynamicCacheLocal K V) :
    (bump r c).size = c.size := by
  rw [bump]
  split <;> rfl

theorem bump_none (c : DynamicCacheLocal K V) :
    bump (none : Option V) c = { c with misses := (c.misses + 1) % u64Mod } := by
  rw [bump, if_neg (by simp)]

theorem bump_some (v : V) (c : DynamicCacheLocal K V) :
    bump (some v) c = { c with hits := (c.hits + 1) % u64Mod } := by
  rw [bump, if_pos (by simp)]

theorem wf_bump {c : DynamicCacheLocal K V} (h : WF c) (r : Option V) :
    WF (bump r c) := by
  rw [bump]
  split <;>
    exact ⟨h.nodup, h.len_le, h.two_le, h.le_max, h.size_eq, h.keys_sub, h.aligned⟩

/-- The tail shared by the branches of `get`: after the map update of `touch`,
run the capacity eviction and push the new window entry; the result is a
well-formed state with the expected window, map and size relations. -/
theorem get_push_final {c : DynamicCacheLocal K V} {key : K} {cnt1 : Nat}
    {ret0 v1 : Option V} {m1 : List (K × Nat × Option V)}
    (htc : touch c key = (cnt1, ret0, { c with map := m1 }))
    (hwf : WF c)
    (hnd1 : (mapKeys m1).Nodup)
    (hsz1 : c.size = cacheCount m1)
    (hsub1 : ∀ k, k ∈ listKeys c.list → k ∈ mapKeys m1)
    (hm1ne : ∀ k, k ≠ key → mapGet m1 k = mapGet c.map k)
    (hkey1 : mapGet m1 key = some (cnt1, v1))
    (hc1 : ∀ k cnt v, mapGet m1 k = some (cnt, v) → cnt < u32Mod ∧
      (key = k → Aligned (entriesFor c.list k) cnt 1) ∧
      (key ≠ k → entriesFor c.list k ≠ [] ∧ Aligned (entriesFor c.list k) cnt 0)) :
    ∃ c', get c key = some (ret0, c') ∧ WF c' ∧
      c'.mem_len = c.mem_len ∧ c'.size ≤ c.size ∧
      c'.list = (key, cnt1) :: (if c.list.length = c.mem_len then c.list.dropLast else c.list) ∧
      (∀ k, k ≠ key → (mapGet c'.map k = mapGet c.map k ∨ mapGet c'.map k = none)) ∧
      mapGet c'.map key = some (cnt1, v1) ∧
      (ret0 = none → c'.hits = c.hits ∧ c'.misses = (c.misses + 1) % u64Mod) ∧
      (∀ w, ret0 = some w → c'.hits = (c.hits + 1) % u64Mod ∧ c'.misses = c.misses) := by
  have H : ∃ c2, maybeEvict { c with map := m1 } = some c2 ∧
      c2.list = (if c.list.length = c.mem_len then c.list.dropLast else c.list) ∧
      c2.mem_len = c.mem_len ∧ c2.size ≤ c.size ∧
      c2.hits = c.hits ∧ c2.misses = c.misses ∧
      (∀ k, k ≠ key → (mapGet c2.map k = mapGet c.map k ∨ mapGet c2.map k = none)) ∧
      mapGet c2.map key = some (cnt1, v1) ∧
      (mapKeys c2.map).Nodup ∧ c2.size = cacheCount c2.map ∧
      (∀ k, k ∈ listKeys c2.list → k ∈ mapKeys c2.map) ∧
      (∀ k cnt v, mapGet c2.map k = some (cnt, v) → cnt < u32Mod ∧
        (key = k → Aligned (entriesFor c2.list k) cnt 1) ∧
        (key ≠ k → entriesFor c2.list k ≠ [] ∧ Aligned (entriesFor c2.list k) cnt 0)) := by
    by_cases hfull : c.list.length = c.mem_len
    · have hne : ({ c with map := m1 } : DynamicCacheLocal K V).list ≠ [] := by
        show c.list ≠ []
        intro h
        rw [h] at hfull
        have h2 := hwf.two_le
        simp at hfull
        omega
      have hcnt1' : ∀ k cnt v,
          mapGet ({ c with map := m1 } : DynamicCacheLocal K V).map k = some (cnt, v) →
          cnt < u32Mod ∧
          ((some key : Option K) = some k →
            Aligned (entriesFor ({ c with map := m1 } : DynamicCacheLocal K V).list k) cnt 1) ∧
          ((some key : Option K) ≠ some k →
            entriesFor ({ c with map := m1 } : DynamicCacheLocal K V).list k ≠ [] ∧
            Aligned (entriesFor ({ c with map := m1 } : DynamicCacheLocal K V).list k) cnt 0) := by
        intro k cnt v hg
        obtain ⟨hlt, h1, h2⟩ := hc1 k cnt v hg
        exact ⟨hlt, fun h => h1 (Option.some.inj h),
          fun h => h2 (fun he => h (by rw [he]))⟩
      obtain ⟨c2, hev, hlist2, hml2, hh2, hmm2, hsz2, hsame2, hpre2, hnd2, hszeq2, hsub2, hc2⟩ :=
        evict_step_main (some key) hne
          (le_trans hwf.len_le hwf.le_max) hnd1 hsz1 hsub1 hcnt1'
      have hkey2 : mapGet c2.map key = some (cnt1, v1) := by
        rw [hpre2 key rfl]
        exact hkey1
      refine ⟨c2, ?_, ?_, hml2, hsz2, hh2, hmm2, ?_, hkey2, hnd2, hszeq2, hsub2, ?_⟩
      · show (if c.list.length = c.mem_len then evictBack { c with map := m1 }
            else some { c with map := m1 }) = some c2
        rw [if_pos hfull]
        exact hev
      · rw [if_pos hfull]
        exact hlist2
      · intro k hk
        rcases hsame2 k with h | h
        · rw [h]
          exact Or.inl (hm1ne k hk)
        · exact Or.inr h
      · intro k cnt v hg
        obtain ⟨hlt, h1, h2⟩ := hc2 k cnt v hg
        exact ⟨hlt, fun h => h1 (by rw [h]),
          fun h => h2 (fun he => h (Option.some.inj he))⟩
    · refine ⟨{ c with map := m1 }, ?_, ?_, rfl, le_refl _, rfl, rfl,
        (fun k hk => Or.inl (hm1ne k hk)), hkey1, hnd1, hsz1, hsub1, hc1⟩
      · show (if c.list.length = c.mem_len then evictBack { c with map := m1 }
            else some { c with map := m1 }) = some { c with map := m1 }
        rw [if_neg hfull]
      · show c.list = (if c.list.length = c.mem_len then c.list.dropLast else c.list)
        rw [if_neg hfull]
  obtain ⟨c2, hme, hlist2, hml2, hsz2, hh2, hmm2, hsame2, hkey2, hnd2, hszeq2, hsub2, hc2⟩ := H
  have hlen2 : c2.list.length + 1 ≤ c.mem_len := by
    rw [hlist2]
    split
    · rw [List.length_dropLast]
      have h2 := hwf.two_le
      omega
    · have h1 := hwf.len_le
      rename_i hfull
      omega
  have hcnt1lt : cnt1 < u32Mod := (hc1 key cnt1 v1 hkey1).1
  have hwfpush : WF { c2 with list := (key, cnt1) :: c2.list } := by
    refine ⟨hnd2, ?_, ?_, ?_, hszeq2, ?_, ?_⟩
    · show ((key, cnt1) :: c2.list).length ≤ c2.mem_len
      rw [List.length_cons, hml2]
      exact hlen2
    · show 2 ≤ c2.mem_len
      rw [hml2]
      exact hwf.two_le
    · show c2.mem_len ≤ u32Mod - 1
      rw [hml2]
      exact hwf.le_max
    · intro k hk
      rw [show listKeys ((key, cnt1) :: c2.list) = key :: listKeys c2.list from rfl,
        List.mem_cons] at hk
      rcases hk with hk | hk
      · subst hk
        exact mem_mapKeys_of_mapGet hkey2
      · exact hsub2 k hk
    · intro k cnt v hg
      by_cases hkk : k = key
      · subst hkk
        rw [hkey2] at hg
        have hpair := Option.some.inj hg
        simp only [Prod.mk.injEq] at hpair
        obtain ⟨hc', hv'⟩ := hpair
        subst hc'
        subst hv'
        refine ⟨hcnt1lt, ?_, ?_⟩
        · show entriesFor ((k, cnt1) :: c2.list) k ≠ []
          rw [entriesFor_cons_self]
          simp
        · show Aligned (entriesFor ((k, cnt1) :: c2.list) k) cnt1 0
          rw [entriesFor_cons_self]
          refine aligned_cons (snapAt_zero hcnt1lt).symm ?_
          have h1 := (hc2 k cnt1 v1 hkey2).2.1 rfl
          exact h1
      · have hg2 : mapGet c2.map k = some (cnt, v) := hg
        obtain ⟨hlt, _, h2⟩ := hc2 k cnt v hg2
        obtain ⟨hn, hal⟩ := h2 (fun h => hkk h.symm)
        have hEeq : entriesFor ((key, cnt1) :: c2.list) k = entriesFor c2.list k :=
          entriesFor_cons_ne (fun h => hkk h.symm) _ _
        refine ⟨hlt, ?_, ?_⟩
        · show entriesFor ((key, cnt1) :: c2.list) k ≠ []
          rw [hEeq]
          exact hn
        · show Aligned (entriesFor ((key, cnt1) :: c2.list) k) cnt 0
          rw [hEeq]
          exact hal
  refine ⟨bump ret0 { c2 with list := (key, cnt1) :: c2.list }, ?_, wf_bump hwfpush ret0,
    ?_, ?_, ?_, ?_, ?_, ?_, ?_⟩
  · simp only [get, htc]
    rw [hme]
  · rw [bump_mem_len]
    exact hml2
  · rw [bump_size]
    exact hsz2
  · rw [bump_list, ← hlist2]
  · intro k hk
    rw [bump_map]
    exact hsame2 k hk
  · rw [bump_map]
    exact hkey2
  · intro hr
    subst hr
    rw [bump_none]
    exact ⟨hh2, by rw [hmm2]⟩
  · intro w hr
    subst hr
    rw [bump_some]
    exact ⟨by rw [hh2], hmm2⟩

/-- Full functional specification of `get` on a well-formed state: it never
panics, preserves well-formedness, pushes `(key, cnt1)` in front of the
(possibly back-evicted) window, updates the key's counter, and records the
hit or the miss. -/
theorem get_spec_wf {c : DynamicCacheLocal K V} (hwf : WF c) (key : K) :
    ∃ ret c' cnt1,
      get c key = some (ret, c') ∧ WF c' ∧
      c'.mem_len = c.mem_len ∧ c'.size ≤ c.size ∧
      c'.list = (key, cnt1) :: (if c.list.length = c.mem_len then c.list.dropLast else c.list) ∧
      (∀ k, k ≠ key → (mapGet c'.map k = mapGet c.map k ∨ mapGet c'.map k = none)) ∧
      (mapGet c.map key = none → cnt1 = 0 ∧ ret = none ∧
        mapGet c'.map key = some (0, none)) ∧
      (∀ cnt v, mapGet c.map key = some (cnt, v) →
        cnt1 = (cnt + 1) % u32Mod ∧ ret = v ∧ mapGet c'.map key = some (cnt1, v)) ∧
      (ret = none → c'.hits = c.hits ∧ c'.misses = (c.misses + 1) % u64Mod) ∧
      (∀ w, ret = some w → c'.hits = (c.hits + 1) % u64Mod ∧ c'.misses = c.misses) := by
  rcases hm : mapGet c.map key with _ | ⟨cnt, v⟩
  · -- the key was never tracked: a fresh entry with counter 0 is created
    have hnotmem : key ∉ mapKeys c.map := by
      intro hmem
      obtain ⟨cv, hcv⟩ := mapGet_isSome_of_mem hmem
      rw [hm] at hcv
      cases hcv
    have hm1keys : mapKeys (mapSet c.map key (0, (none : Option V)))
        = mapKeys c.map ++ [key] := mapKeys_mapSet_of_not_mem hnotmem _
    have hnd1 : (mapKeys (mapSet c.map key (0, (none : Option V)))).Nodup := by
      rw [hm1keys, List.nodup_append]
      refine ⟨hwf.nodup, List.nodup_singleton _, ?_⟩
      intro a ha hb
      rw [List.mem_singleton] at hb
      subst hb
      exact hnotmem ha
    have hEkey : entriesFor c.list key = [] := by
      by_contra h
      exact hnotmem (hwf.keys_sub key (mem_listKeys_iff.mpr h))
    have htc : touch c key = (0, none, { c with map := mapSet c.map key (0, none) }) := by
      simp [touch, hm]
    have hc1 : ∀ k cnt' v',
        mapGet (mapSet c.map key (0, (none : Option V))) k = some (cnt', v') →
        cnt' < u32Mod ∧
        (key = k → Aligned (entriesFor c.list k) cnt' 1) ∧
        (key ≠ k → entriesFor c.list k ≠ [] ∧ Aligned (entriesFor c.list k) cnt' 0) := by
      intro k cnt' v' hg
      by_cases hkk : key = k
      · subst hkk
        rw [mapGet_mapSet_self] at hg
        have hpair := Option.some.inj hg
        simp only [Prod.mk.injEq] at hpair
        obtain ⟨h1, h2⟩ := hpair
        subst h1
        subst h2
        refine ⟨u32Mod_pos, fun _ => ?_, fun h => absurd rfl h⟩
        rw [hEkey]
        exact aligned_nil _ _
      · rw [mapGet_mapSet_ne c.map (fun h => hkk h.symm) _] at hg
        obtain ⟨hlt, hne', hal⟩ := hwf.aligned k cnt' v' hg
        exact ⟨hlt, fun h => absurd h hkk, fun _ => ⟨hne', hal⟩⟩
    obtain ⟨c', hget, hwf', hml, hsz, hlist, hsame, hkey', hmiss, hhit⟩ :=
      get_push_final htc hwf hnd1
        (by rw [cacheCount_mapSet_new hm]; exact hwf.size_eq)
        (fun k hk => by rw [hm1keys]; exact List.mem_append_left _ (hwf.keys_sub k hk))
        (fun k hk => mapGet_mapSet_ne c.map hk _)
        (mapGet_mapSet_self c.map key _)
        hc1
    refine ⟨none, c', 0, hget, hwf', hml, hsz, hlist, hsame,
      fun _ => ⟨rfl, rfl, hkey'⟩, ?_, hmiss, hhit⟩
    intro cnt' v' h
    exact Option.noConfusion h
  · -- the key is tracked: its counter is incremented modulo 2 ^ 32
    have hmem : key ∈ mapKeys c.map := mem_mapKeys_of_mapGet hm
    obtain ⟨hcntlt, hEne, hal0⟩ := hwf.aligned key cnt v hm
    have htc : touch c key = ((cnt + 1) % u32Mod, v,
        { c with map := mapSet c.map key ((cnt + 1) % u32Mod, v) }) := by
      rcases v with _ | w <;> simp [touch, hm]
    have hc1 : ∀ k cnt' v',
        mapGet (mapSet c.map key ((cnt + 1) % u32Mod, v)) k = some (cnt', v') →
        cnt' < u32Mod ∧
        (key = k → Aligned (entriesFor c.list k) cnt' 1) ∧
        (key ≠ k → entriesFor c.list k ≠ [] ∧ Aligned (entriesFor c.list k) cnt' 0) := by
      intro k cnt' v' hg
      by_cases hkk : key = k
      · subst hkk
        rw [mapGet_mapSet_self] at hg
        have hpair := Option.some.inj hg
        simp only [Prod.mk.injEq] at hpair
        obtain ⟨h1, h2⟩ := hpair
        subst h1
        subst h2
        refine ⟨Nat.mod_lt _ u32Mod_pos, fun _ => ?_, fun h => absurd rfl h⟩
        exact aligned_shift hal0
      · rw [mapGet_mapSet_ne c.map (fun h => hkk h.symm) _] at hg
        obtain ⟨hlt, hne', hal⟩ := hwf.aligned k cnt' v' hg
        exact ⟨hlt, fun h => absurd h hkk, fun _ => ⟨hne', hal⟩⟩
    obtain ⟨c', hget, hwf', hml, hsz, hlist, hsame, hkey', hmiss, hhit⟩ :=
      get_push_final htc hwf
        (by rw [mapKeys_mapSet_of_mem hmem]; exact hwf.nodup)
        (by rw [cacheCount_mapSet_same hm _ v rfl]; exact hwf.size_eq)
        (fun k hk => by rw [mapKeys_mapSet_of_mem hmem]; exact hwf.keys_sub k hk)
        (fun k hk => mapGet_mapSet_ne c.map hk _)
        (mapGet_mapSet_self c.map key _)
        hc1
    refine ⟨v, c', (cnt + 1) % u32Mod, hget, hwf', hml, hsz, hlist, hsame, ?_, ?_,
      hmiss, hhit⟩
    · intro h
      exact Option.noConfusion h
    · intro cnt' v' h
      have hpair := Option.some.inj h
      simp only [Prod.mk.injEq] at hpair
      obtain ⟨h1, h2⟩ := hpair
      subst h1
      subst h2
      exact ⟨rfl, rfl, hkey'⟩

/-- Functional specification of `insert` when the key is tracked (the `expect`
precondition): the three branches of `src/lib.rs`. -/
theorem insert_spec {c : DynamicCacheLocal K V} (hwf : WF c) {key : K} {cnt : Nat}
    {val : Option V} (hm : mapGet c.map key = some (cnt, val)) (v : V) :
    ∃ r c', insert c key v = some (r, c') ∧ WF c' ∧
      c'.list = c.list ∧ c'.mem_len = c.mem_len ∧
      c'.hits = c.hits ∧ c'.misses = c.misses ∧
      (∀ k, k ≠ key → mapGet c'.map k = mapGet c.map k) ∧
      (∀ k cnt0 v0, mapGet c.map k = some (cnt0, v0) →
        ∃ v1, mapGet c'.map k = some (cnt0, v1)) ∧
      (cnt = 0 → r = v ∧ c' = c) ∧
      (cnt ≠ 0 → ∀ w, val = some w → r = w ∧ c' = c) ∧
      (cnt ≠ 0 → val = none → r = v ∧ c'.size = c.size + 1 ∧
        mapGet c'.map key = some (cnt, some v)) := by
  by_cases hz : cnt = 0
  · subst hz
    refine ⟨v, c, ?_, hwf, rfl, rfl, rfl, rfl, fun k _ => rfl,
      fun k cnt0 v0 hg => ⟨v0, hg⟩, fun _ => ⟨rfl, rfl⟩,
      fun h => absurd rfl h, fun h => absurd rfl h⟩
    simp [insert, hm]
  · rcases val with _ | w
    · -- promotion: wrap the value, store it, increment size
      have hmem : key ∈ mapKeys c.map := mem_mapKeys_of_mapGet hm
      obtain ⟨hcntlt, hEne, hal0⟩ := hwf.aligned key cnt none hm
      refine ⟨v, { c with map := mapSet c.map key (cnt, some v), size := c.size + 1 },
        ?_, ?_, rfl, rfl, rfl, rfl, ?_, ?_, fun h => absurd h hz,
        fun _ w hw => Option.noConfusion hw, ?_⟩
      · simp [insert, hm, hz]
      · refine ⟨?_, hwf.len_le, hwf.two_le, hwf.le_max, ?_, ?_, ?_⟩
        · show (mapKeys (mapSet c.map key (cnt, some v))).Nodup
          rw [mapKeys_mapSet_of_mem hmem]
          exact hwf.nodup
        · show c.size + 1 = cacheCount (mapSet c.map key (cnt, some v))
          rw [cacheCount_mapSet_promote hm]
          rw [hwf.size_eq]
        · intro k hk
          show k ∈ mapKeys (mapSet c.map key (cnt, some v))
          rw [mapKeys_mapSet_of_mem hmem]
          exact hwf.keys_sub k hk
        · intro k cnt' v' hg
          by_cases hkk : key = k
          · subst hkk
            rw [mapGet_mapSet_self] at hg
            have hpair := Option.some.inj hg
            simp only [Prod.mk.injEq] at hpair
            obtain ⟨h1, h2⟩ := hpair
            subst h1
            subst h2
            exact ⟨hcntlt, hEne, hal0⟩
          · rw [mapGet_mapSet_ne c.map (fun h => hkk h.symm) _] at hg
            exact hwf.aligned k cnt' v' hg
      · intro k hk
        show mapGet (mapSet c.map key (cnt, some v)) k = mapGet c.map k
        exact mapGet_mapSet_ne c.map hk _
      · intro k cnt0 v0 hg
        by_cases hkk : k = key
        · subst hkk
          rw [hm] at hg
          have hpair := Option.some.inj hg
          simp only [Prod.mk.injEq] at hpair
          obtain ⟨h1, h2⟩ := hpair
          subst h1
          exact ⟨some v, mapGet_mapSet_self c.map k _⟩
        · exact ⟨v0, by rw [show mapGet (mapSet c.map key (cnt, some v)) k
            = mapGet c.map k from mapGet_mapSet_ne c.map hkk _]; exact hg⟩
      · intro _ _
        exact ⟨rfl, rfl, mapGet_mapSet_self c.map key _⟩
    · -- a value is already stored: return the existing handle
      refine ⟨w, c, ?_, hwf, rfl, rfl, rfl, rfl, fun k _ => rfl,
        fun k cnt0 v0 hg => ⟨v0, hg⟩, fun h => absurd h hz,
        ?_, fun _ hn => Option.noConfusion hn⟩
      · simp [insert, hm, hz]
      · intro _ w' hw
        have := Option.some.inj hw
        subst this
        exact ⟨rfl, rfl⟩

/-- Totality and preservation for the `set_mem_len` eviction loop, by strong
induction on the window length. -/
theorem shrink_spec : ∀ (L : Nat) (c : DynamicCacheLocal K V) (n : Nat),
    c.list.length = L →
    c.list.length ≤ u32Mod - 1 →
    (mapKeys c.map).Nodup →
    c.size = cacheCount c.map →
    (∀ k, k ∈ listKeys c.list → k ∈ mapKeys c.map) →
    (∀ k cnt v, mapGet c.map k = some (cnt, v) → cnt < u32Mod ∧
      entriesFor c.list k ≠ [] ∧ Aligned (entriesFor c.list k) cnt 0) →
    ∃ c2, shrink c n = some c2 ∧
      c2.list.length ≤ n ∧ c2.list.length ≤ c.list.length ∧
      c2.mem_len = c.mem_len ∧ c2.hits = c.hits ∧ c2.misses = c.misses ∧
      c2.size ≤ c.size ∧
      (∀ k, mapGet c2.map k = mapGet c.map k ∨ mapGet c2.map k = none) ∧
      (mapKeys c2.map).Nodup ∧ c2.size = cacheCount c2.map ∧
      (∀ k, k ∈ listKeys c2.list → k ∈ mapKeys c2.map) ∧
      (∀ k cnt v, mapGet c2.map k = some (cnt, v) → cnt < u32Mod ∧
        entriesFor c2.list k ≠ [] ∧ Aligned (entriesFor c2.list k) cnt 0) := by
  intro L
  induction L using Nat.strong_induction_on with
  | _ L ih =>
    intro c n hL hM hnd hsz hsub hcnt
    by_cases hlt : n < c.list.length
    · have hne : c.list ≠ [] := by
        intro h
        rw [h] at hlt
        simp at hlt
      have hcnt' : ∀ k cnt v, mapGet c.map k = some (cnt, v) → cnt < u32Mod ∧
          ((none : Option K) = some k → Aligned (entriesFor c.list k) cnt 1) ∧
          ((none : Option K) ≠ some k → entriesFor c.list k ≠ [] ∧
            Aligned (entriesFor c.list k) cnt 0) := by
        intro k cnt v hg
        obtain ⟨hlt', hn, ha⟩ := hcnt k cnt v hg
        exact ⟨hlt', fun h => Option.noConfusion h, fun _ => ⟨hn, ha⟩⟩
      obtain ⟨c2, hev, hlist2, hml2, hh2, hmm2, hsz2, hsame2, _, hnd2, hszeq2, hsub2, hc2⟩ :=
        evict_step_main (none : Option K) hne hM hnd hsz hsub hcnt'
      have hlen2 : c2.list.length < c.list.length := evictBack_shrinks hev
      have hc2' : ∀ k cnt v, mapGet c2.map k = some (cnt, v) → cnt < u32Mod ∧
          entriesFor c2.list k ≠ [] ∧ Aligned (entriesFor c2.list k) cnt 0 := by
        intro k cnt v hg
        obtain ⟨hlt', _, h2⟩ := hc2 k cnt v hg
        obtain ⟨hn, ha⟩ := h2 (fun h => Option.noConfusion h)
        exact ⟨hlt', hn, ha⟩
      obtain ⟨c3, hsh2, hl1, hl2, hml3, hh3, hmm3, hsz3, hsame3, hnd3, hszeq3, hsub3, hc3⟩ :=
        ih c2.list.length (by omega) c2 n rfl (by omega) hnd2 hszeq2 hsub2 hc2'
      refine ⟨c3, ?_, hl1, by omega, by rw [hml3, hml2], by rw [hh3, hh2],
        by rw [hmm3, hmm2], le_trans hsz3 hsz2, ?_, hnd3, hszeq3, hsub3, hc3⟩
      · unfold shrink
        rw [dif_pos hlt]
        split
        · rename_i heq
          rw [hev] at heq
          cases heq
        · rename_i c2' heq
          rw [hev] at heq
          cases heq
          exact hsh2
      · intro k
        rcases hsame3 k with h | h
        · rw [h]
          exact hsame2 k
        · exact Or.inr h
    · refine ⟨c, ?_, by omega, le_refl _, rfl, rfl, rfl, le_refl _,
        fun k => Or.inl rfl, hnd, hsz, hsub, hcnt⟩
      unfold shrink
      rw [dif_neg hlt]

theorem clampLen_bounds (n : Nat) : 2 ≤ clampLen n ∧ clampLen n ≤ u32Mod - 1 := by
  simp only [clampLen, u32Mod]
  omega

/-- Functional specification of `set_mem_len` on a well-formed state. -/
theorem set_mem_len_spec {c : DynamicCacheLocal K V} (hwf : WF c) (n : Nat) :
    ∃ c', set_mem_len c n = some c' ∧ WF c' ∧
      c'.mem_len = clampLen n ∧ c'.size ≤ c.size ∧
      c'.hits = c.hits ∧ c'.misses = c.misses ∧
      (∀ k, mapGet c'.map k = mapGet c.map k ∨ mapGet c'.map k = none) := by
  obtain ⟨c2, hsh, hlen_n, _, hml, hh, hmm, hsz, hsame, hnd2, hszeq2, hsub2, hc2⟩ :=
    shrink_spec c.list.length c (clampLen n) rfl (le_trans hwf.len_le hwf.le_max)
      hwf.nodup hwf.size_eq hwf.keys_sub hwf.aligned
  refine ⟨{ c2 with mem_len := clampLen n }, ?_, ?_, rfl, hsz, hh, hmm, hsame⟩
  · simp only [set_mem_len, hsh]
  · exact ⟨hnd2, hlen_n, (clampLen_bounds n).1, (clampLen_bounds n).2,
      hszeq2, hsub2, hc2⟩

/-! ### Well-formedness of reachable states -/

theorem wf_new (n : Nat) : WF (new n : DynamicCacheLocal K V) := by
  refine ⟨List.nodup_nil, Nat.zero_le _, (clampLen_bounds n).1, (clampLen_bounds n).2,
    rfl, ?_, ?_⟩
  · intro k hk
    simp [new, listKeys] at hk
  · intro k cnt v hg
    simp [new, mapGet] at hg

theorem wf_clear {c : DynamicCacheLocal K V} (hwf : WF c) : WF (clear_cache c) := by
  refine ⟨List.nodup_nil, Nat.zero_le _, hwf.two_le, hwf.le_max, rfl, ?_, ?_⟩
  · intro k hk
    simp [clear_cache, listKeys] at hk
  · intro k cnt v hg
    simp [clear_cache, mapGet] at hg

theorem wf_reset {c : DynamicCacheLocal K V} (hwf : WF c) : WF (reset_metrics c) :=
  ⟨hwf.nodup, hwf.len_le, hwf.two_le, hwf.le_max, hwf.size_eq, hwf.keys_sub,
    hwf.aligned⟩

theorem applyOp_wf {c c' : DynamicCacheLocal K V} {op : Op K V} (hwf : WF c)
    (h : applyOp op c = some c') : WF c' := by
  cases op with
  | get k =>
    obtain ⟨ret, c'', cnt1, hget, hwf', _⟩ := get_spec_wf hwf k
    simp only [applyOp, hget, Option.map_some'] at h
    cases h
    exact hwf'
  | insert k v =>
    rcases hm : mapGet c.map k with _ | ⟨cnt, val⟩
    · simp [applyOp, insert, hm] at h
    · obtain ⟨r, c'', hins, hwf', _⟩ := insert_spec hwf hm v
      simp only [applyOp, hins, Option.map_some'] at h
      cases h
      exact hwf'
  | get_or_insert k v =>
    obtain ⟨ret, cg, cnt1, hget, hwfg, _, _, _, _, hnone, hsome, _, _⟩ :=
      get_spec_wf hwf k
    rcases ret with _ | w
    · simp only [applyOp, get_or_insert, hget] at h
      rcases hmv : mapGet cg.map k with _ | ⟨cnt2, val2⟩
      · simp [insert, hmv] at h
      · obtain ⟨r, c'', hins, hwf', _⟩ := insert_spec hwfg hmv v
        rw [hins] at h
        simp only [Option.map_some'] at h
        cases h
        exact hwf'
    · simp only [applyOp, get_or_insert, hget, Option.map_some'] at h
      cases h
      exact hwfg
  | set_mem_len n =>
    obtain ⟨c'', hsml, hwf', _⟩ := set_mem_len_spec hwf n
    simp only [applyOp] at h
    rw [hsml] at h
    cases h
    exact hwf'
  | clear_cache =>
    simp only [applyOp] at h
    cases h
    exact wf_clear hwf
  | reset_metrics =>
    simp only [applyOp] at h
    cases h
    exact wf_reset hwf

/-- Every reachable engine state is well-formed. -/
theorem reachable_wf {c : DynamicCacheLocal K V} (hr : Reachable c) : WF c := by
  induction hr with
  | base n => exact wf_new n
  | step op hr happ ih => exact applyOp_wf ih happ

/-! ### Hit/miss accounting facts that hold on arbitrary states -/

theorem evictBack_stats {c c2 : DynamicCacheLocal K V} (h : evictBack c = some c2) :
    c2.hits = c.hits ∧ c2.misses = c.misses := by
  unfold evictBack at h
  split at h
  · exact Option.noConfusion h
  · split at h
    · exact Option.noConfusion h
    · split at h <;> (cases h; exact ⟨rfl, rfl⟩)

theorem maybeEvict_stats {c c2 : DynamicCacheLocal K V} (h : maybeEvict c = some c2) :
    c2.hits = c.hits ∧ c2.misses = c.misses := by
  unfold maybeEvict at h
  split at h
  · exact evictBack_stats h
  · cases h
    exact ⟨rfl, rfl⟩

/-- On any state (well-formed or not), a successful `get` records exactly one
hit or one miss, matching the returned value. -/
theorem get_stats {c : DynamicCacheLocal K V} {key : K} {ret : Option V}
    {c' : DynamicCacheLocal K V} (h : get c key = some (ret, c')) :
    (ret = none → c'.hits = c.hits ∧ c'.misses = (c.misses + 1) % u64Mod) ∧
    (∀ w, ret = some w → c'.hits = (c.hits + 1) % u64Mod ∧ c'.misses = c.misses) := by
  rcases htc : touch c key with ⟨cnt1, ret0, c1⟩
  have hstats1 : c1.hits = c.hits ∧ c1.misses = c.misses := by
    unfold touch at htc
    split at htc <;> (cases htc; exact ⟨rfl, rfl⟩)
  simp only [get, htc] at h
  rcases hme : maybeEvict c1 with _ | c2
  · rw [hme] at h
    exact Option.noConfusion h
  · rw [hme] at h
    have hpair := Option.some.inj h
    have hret : ret0 = ret := congrArg Prod.fst hpair
    have hc' : bump ret0 { c2 with list := (key, cnt1) :: c2.list } = c' :=
      congrArg Prod.snd hpair
    obtain ⟨he1, he2⟩ := maybeEvict_stats hme
    subst hret
    subst hc'
    constructor
    · intro hr
      subst hr
      rw [bump_none]
      refine ⟨?_, ?_⟩
      · show c2.hits = c.hits
        rw [he1, hstats1.1]
      · show (c2.misses + 1) % u64Mod = (c.misses + 1) % u64Mod
        rw [he2, hstats1.2]
    · intro w hr
      subst hr
      rw [bump_some]
      refine ⟨?_, ?_⟩
      · show (c2.hits + 1) % u64Mod = (c.hits + 1) % u64Mod
        rw [he1, hstats1.1]
      · show c2.misses = c.misses
        rw [he2, hstats1.2]

/-- The `insert` operation never panics when the key is tracked. -/
theorem insert_total {c : DynamicCacheLocal K V} {key : K} {cnt : Nat}
    {val : Option V} (h : mapGet c.map key = some (cnt, val)) (v : V) :
    (insert c key v).isSome := by
  simp only [insert, h]
  split
  · simp
  · rcases val with _ | w <;> simp

/-! ### Window aging: after `mem_len` foreign requests nothing old survives -/

theorem dropLast_append_ne {α : Type} (l1 : List α) {l2 : List α} (h : l2 ≠ []) :
    (l1 ++ l2).dropLast = l1 ++ l2.dropLast := by
  rcases List.eq_nil_or_concat l2 with h1 | ⟨L, b, h1⟩
  · exact absurd h1 h
  · rw [List.concat_eq_append] at h1
    subst h1
    rw [← List.append_assoc, List.dropLast_concat, List.dropLast_concat]

/-- Running a sequence of `get` calls that never touches `k` keeps a
decomposition of the window into freshly pushed entries (none for `k`) and a
shrinking remnant of the original window; once the remnant is gone it stays
gone, and while it is present every call has pushed one fresh entry. -/
theorem runGets_suffix {k : K} : ∀ (ks : List K) (c : DynamicCacheLocal K V)
    (newl oldsuf : List (K × Nat)),
    WF c → (∀ x ∈ ks, x ≠ k) → c.list = newl ++ oldsuf →
    (∀ e ∈ newl, e.1 ≠ k) →
    ∃ c', runGets ks c = some c' ∧ WF c' ∧ c'.mem_len = c.mem_len ∧
      ∃ newl' oldsuf', c'.list = newl' ++ oldsuf' ∧
        (∀ e ∈ newl', e.1 ≠ k) ∧
        (oldsuf = [] → oldsuf' = []) ∧
        (oldsuf' = [] ∨ newl'.length = newl.length + ks.length) := by
  intro ks
  induction ks with
  | nil =>
    intro c newl oldsuf hwf _ hdec hnewl
    exact ⟨c, rfl, hwf, rfl, newl, oldsuf, hdec, hnewl, fun h => h,
      Or.inr (by simp)⟩
  | cons k1 rest ih =>
    intro c newl oldsuf hwf hks hdec hnewl
    have hk1 : k1 ≠ k := hks k1 (List.mem_cons_self _ _)
    have hks' : ∀ x ∈ rest, x ≠ k := fun x hx => hks x (List.mem_cons_of_mem _ hx)
    obtain ⟨ret, c1, cnt1, hget, hwf1, hml1, _, hlist1, _⟩ := get_spec_wf hwf k1
    have hrun : runGets (k1 :: rest) c = runGets rest c1 := by
      simp only [runGets, hget]
    by_cases hfull : c.list.length = c.mem_len
    · rw [if_pos hfull] at hlist1
      by_cases hsuf : oldsuf = []
      · subst hsuf
        rw [List.append_nil] at hdec
        have hlist1' : c1.list = ((k1, cnt1) :: newl.dropLast) ++ [] := by
          rw [List.append_nil, hlist1, hdec]
        have hnewl' : ∀ e ∈ (k1, cnt1) :: newl.dropLast, e.1 ≠ k := by
          intro e he
          rcases List.mem_cons.mp he with he | he
          · subst he
            exact hk1
          · exact hnewl e ((List.dropLast_sublist newl).subset he)
        obtain ⟨c', hrun', hwf', hml', newl', oldsuf', hdec', hn', hemp', hor'⟩ :=
          ih c1 ((k1, cnt1) :: newl.dropLast) [] hwf1 hks' hlist1' hnewl'
        refine ⟨c', by rw [hrun, hrun'], hwf', by rw [hml', hml1],
          newl', oldsuf', hdec', hn', fun _ => hemp' rfl, Or.inl (hemp' rfl)⟩
      · have hlist1' : c1.list = ((k1, cnt1) :: newl) ++ oldsuf.dropLast := by
          rw [hlist1, hdec, dropLast_append_ne _ hsuf]
          rfl
        have hnewl' : ∀ e ∈ (k1, cnt1) :: newl, e.1 ≠ k := by
          intro e he
          rcases List.mem_cons.mp he with he | he
          · subst he
            exact hk1
          · exact hnewl e he
        obtain ⟨c', hrun', hwf', hml', newl', oldsuf', hdec', hn', hemp', hor'⟩ :=
          ih c1 ((k1, cnt1) :: newl) oldsuf.dropLast hwf1 hks' hlist1' hnewl'
        refine ⟨c', by rw [hrun, hrun'], hwf', by rw [hml', hml1],
          newl', oldsuf', hdec', hn', fun h => absurd h hsuf, ?_⟩
        rcases hor' with h | h
        · exact Or.inl h
        · refine Or.inr ?_
          rw [h]
          simp
          omega
    · rw [if_neg hfull] at hlist1
      have hlist1' : c1.list = ((k1, cnt1) :: newl) ++ oldsuf := by
        rw [hlist1, hdec]
        rfl
      have hnewl' : ∀ e ∈ (k1, cnt1) :: newl, e.1 ≠ k := by
        intro e he
        rcases List.mem_cons.mp he with he | he
        · subst he
          exact hk1
        · exact hnewl e he
      obtain ⟨c', hrun', hwf', hml', newl', oldsuf', hdec', hn', hemp', hor'⟩ :=
        ih c1 ((k1, cnt1) :: newl) oldsuf hwf1 hks' hlist1' hnewl'
      refine ⟨c', by rw [hrun, hrun'], hwf', by rw [hml', hml1],
        newl', oldsuf', hdec', hn', hemp', ?_⟩
      rcases hor' with h | h
      · exact Or.inl h
      · refine Or.inr ?_
        rw [h]
        simp
        omega

/-! ### A reachable run that wraps a request counter around 2 ^ 32 -/

theorem with_hasher_eq_new {S : Type} (n : Nat) (hb : S) :
    (with_hasher n hb : DynamicCacheLocal K V) = new n := rfl

theorem fState_step {n : Nat} (h2 : 2 ≤ n) (hM : n ≤ u32Mod) :
    applyOp (Op.get 0) (fState n) = some (fState (n + 1)) := by
  have hc1 : (((n - 1) % u32Mod) + 1) % u32Mod = n % u32Mod := by
    simp only [u32Mod]
    omega
  have hne : ¬(n % u32Mod = (n - 2) % u32Mod) := by
    simp only [u32Mod]
    omega
  have hmiss : (n + 1) % u64Mod = n + 1 := by
    simp only [u64Mod, u32Mod] at *
    omega
  have hsub1 : n + 1 - 1 = n := by omega
  have hsub2 : n + 1 - 2 = n - 1 := by omega
  have htc : touch (fState n) 0 = (n % u32Mod, (none : Option Nat),
      { fState n with map := [(0, (n % u32Mod, (none : Option Nat)))] }) := by
    simp [touch, fState, mapGet, mapSet, hc1]
  have hev : evictBack ({ fState n with
        map := [(0, (n % u32Mod, (none : Option Nat)))] }) =
      some ({ fState n with
        map := [(0, (n % u32Mod, (none : Option Nat)))]
        list := [(0, (n - 1) % u32Mod)] }) := by
    simp [evictBack, fState, mapGet, hne]
  have hme : maybeEvict ({ fState n with
        map := [(0, (n % u32Mod, (none : Option Nat)))] }) =
      some ({ fState n with
        map := [(0, (n % u32Mod, (none : Option Nat)))]
        list := [(0, (n - 1) % u32Mod)] }) := by
    rw [maybeEvict, if_pos (by simp [fState])]
    exact hev
  simp only [applyOp, get, htc, hme]
  rw [bump_none]
  simp [fState, hsub1, hsub2, hmiss]

theorem reach_fState : ∀ n, 2 ≤ n → n ≤ u32Mod → Reachable (fState n) := by
  intro n
  induction n with
  | zero => intro h _; omega
  | succ m ih =>
    intro h2 hM
    by_cases hm2 : 2 ≤ m
    · exact Reachable.step (Op.get 0) (ih hm2 (by omega)) (fState_step hm2 (by omega))
    · have hm1 : m = 1 := by omega
      subst hm1
      have s0 : Reachable (new 2 : DynamicCacheLocal Nat Nat) := Reachable.base 2
      have s1 : Reachable (DynamicCacheLocal.mk
          [(0, (0, (none : Option Nat)))] [(0, 0)] 2 0 0 1) :=
        Reachable.step (Op.get 0) s0 (by decide)
      exact Reachable.step (Op.get 0) s1 (by decide)

/-! ## The claims -/

/-- Claim C1: whenever a back-eviction step runs (in `get` when the window
holds exactly `mem_len` entries, and in `set_mem_len` while the window is
longer than the new clamped length), the oldest window entry `(k, snapshot)`
is popped; if `k`'s current counter in the map equals the snapshot, `k`'s map
entry is removed entirely and `size` is decremented exactly when that entry
held a value; otherwise the map is left untouched and only the stale window
entry is discarded. -/
theorem C1_back_eviction {K V : Type} [DecidableEq K] {c : DynamicCacheLocal K V}
    {l : List (K × Nat)} {k0 : K} {s cnt0 : Nat} {v0 : Option V}
    (hl : c.list = l ++ [(k0, s)])
    (hm : mapGet c.map k0 = some (cnt0, v0))
    (hnd : (mapKeys c.map).Nodup)
    (hsz : v0.isSome → 1 ≤ c.size) :
    (∃ c2, evictBack c = some c2 ∧ c2.list = l ∧
      (cnt0 = s →
        mapGet c2.map k0 = none ∧
        (∀ k, k ≠ k0 → mapGet c2.map k = mapGet c.map k) ∧
        c2.size + (if v0.isSome then 1 else 0) = c.size) ∧
      (cnt0 ≠ s → c2.map = c.map ∧ c2.size = c.size)) ∧
    (c.list.length = c.mem_len → maybeEvict c = evictBack c) ∧
    (∀ n, n < c.list.length →
      shrink c n = (evictBack c).bind (fun c2 => shrink c2 n)) := by
  have hlast : c.list.getLast? = some (k0, s) := by
    rw [hl]
    exact List.getLast?_concat _
  have hdrop : c.list.dropLast = l := by
    rw [hl]
    exact List.dropLast_concat
  refine ⟨?_, ?_, ?_⟩
  · by_cases hcs : cnt0 = s
    · refine ⟨({ c with
          size := (if v0.isSome then c.size - 1 else c.size)
          map := mapRemove c.map k0
          list := c.list.dropLast } : DynamicCacheLocal K V), ?_, hdrop, ?_, ?_⟩
      · simp only [evictBack, hlast, hm]
        rw [if_pos hcs]
      · intro _
        refine ⟨mapGet_mapRemove_self hnd,
          fun k hk => mapGet_mapRemove_ne c.map hk, ?_⟩
        by_cases hv : v0.isSome
        · have h1 := hsz hv
          simp [hv]
          omega
        · simp [hv]
      · intro h
        exact absurd hcs h
    · refine ⟨{ c with list := c.list.dropLast }, ?_, hdrop,
        fun h => absurd h hcs, fun _ => ⟨rfl, rfl⟩⟩
      simp only [evictBack, hlast, hm]
      rw [if_neg hcs]
  · intro hfull
    rw [maybeEvict, if_pos hfull]
  · intro n hlt
    rcases hev : evictBack c with _ | c2
    · show shrink c n = none
      rw [shrink.eq_def, dif_pos hlt]
      split
      · rfl
      · rename_i c2 heq
        rw [hev] at heq
        cases heq
    · show shrink c n = shrink c2 n
      rw [shrink.eq_def, dif_pos hlt]
      split
      · rename_i heq
        rw [hev] at heq
        cases heq
      · rename_i c2' heq
        rw [hev] at heq
        cases heq
        rfl

/-- Witness for C1 at a concrete state: window `[(1,0),(0,1)]`, key `0` has
counter `1` equal to the popped snapshot and a cached value, so the eviction
removes it from the map and decrements `size` from `1` to `0`. -/
theorem C1_back_eviction_witness :
    ∃ c2, evictBack (DynamicCacheLocal.mk [(0, (1, some 9)), (1, (0, none))]
        [(1, 0), (0, 1)] 2 1 0 0 : DynamicCacheLocal Nat Nat) = some c2 ∧
      mapGet c2.map 0 = none ∧ c2.size = 0 := by
  obtain ⟨⟨c2, hev, hlst, hrem, _⟩, _, _⟩ :=
    @C1_back_eviction Nat Nat _
      (DynamicCacheLocal.mk [(0, (1, some 9)), (1, (0, none))] [(1, 0), (0, 1)] 2 1 0 0)
      [(1, 0)] 0 1 1 (some 9)
      rfl (by decide) (by decide) (fun _ => by decide)
  obtain ⟨h1, _, h3⟩ := hrem rfl
  refine ⟨c2, hev, h1, ?_⟩
  simp at h3
  omega

/-- Claim C2: in every reachable state, the `size` field equals the number of
map entries whose optional cached value is present.  `Reachable` closes the
freshly constructed state (`new`; `with_hasher` builds the same state, see
`with_hasher_eq_new`) under `get`, `insert`, `get_or_insert`, `set_mem_len`,
`clear_cache` and `reset_metrics`. -/
theorem C2_size_invariant {K V : Type} [DecidableEq K] {c : DynamicCacheLocal K V}
    (hr : Reachable c) : c.size = cacheCount c.map :=
  (reachable_wf hr).size_eq

/-- Witness for C2 on the state reached from `new 4` by two `get_or_insert`
calls for the key `7` (which caches the value, making `size = 1`). -/
theorem C2_size_invariant_witness :
    (DynamicCacheLocal.mk [(7, (1, some 100))] [(7, 1), (7, 0)] 4 1 0 2
      : DynamicCacheLocal Nat Nat).size
    = cacheCount (DynamicCacheLocal.mk [(7, (1, some 100))] [(7, 1), (7, 0)] 4 1 0 2
      : DynamicCacheLocal Nat Nat).map := by
  have s0 : Reachable (new 4 : DynamicCacheLocal Nat Nat) := Reachable.base 4
  have s1 : Reachable (DynamicCacheLocal.mk
      [(7, (0, (none : Option Nat)))] [(7, 0)] 4 0 0 1) :=
    Reachable.step (Op.get_or_insert 7 100) s0 (by decide)
  have s2 : Reachable (DynamicCacheLocal.mk
      [(7, (1, some 100))] [(7, 1), (7, 0)] 4 1 0 2) :=
    Reachable.step (Op.get_or_insert 7 100) s1 (by decide)
  exact C2_size_invariant s2

/-- Claim C3 counterexample: the claim says a failing producer leaves the
hit/miss counters and the tracking state exactly as before the call.  In the
code, `get_or_insert` runs `get` — which records the miss, creates the
tracked entry and pushes the window entry — *before* invoking the producer,
so a producer failure on a fresh cache leaves `misses = 1` and a changed
tracking state. -/
theorem C3_counterexample :
    get_or_insert_fb (new 2 : DynamicCacheLocal Nat Nat) 0 none
      = some (Except.error (DynamicCacheLocal.mk
          [(0, (0, (none : Option Nat)))] [(0, 0)] 2 0 0 1)) ∧
    (DynamicCacheLocal.mk [(0, (0, (none : Option Nat)))] [(0, 0)] 2 0 0 1).misses = 1 ∧
    (new 2 : DynamicCacheLocal Nat Nat).misses = 0 ∧
    (DynamicCacheLocal.mk [(0, (0, (none : Option Nat)))] [(0, 0)] 2 0 0 1)
      ≠ (new 2 : DynamicCacheLocal Nat Nat) := by
  exact ⟨by rfl, rfl, rfl, by decide⟩

/-- Claim C3 (amended): if the producer invoked by `get_or_insert` fails
before producing a value, the failure propagates and the `insert` step is
skipped — no value is stored and the call performs no mutation beyond the
`get` that preceded the producer; but that `get` has already recorded the
miss, so the state at the failure is exactly the post-`get` state, with the
miss counter incremented and the hit counter unchanged. -/
theorem C3_amended_producer_failure {K V : Type} [DecidableEq K]
    {c c' : DynamicCacheLocal K V} {key : K}
    (h : get c key = some (none, c')) :
    get_or_insert_fb c key none = some (Except.error c') ∧
    c'.hits = c.hits ∧ c'.misses = (c.misses + 1) % u64Mod := by
  obtain ⟨h1, h2⟩ := (get_stats h).1 rfl
  refine ⟨?_, h1, h2⟩
  simp only [get_or_insert_fb, h]

/-- Witness for the amended C3 on a fresh cache and the key `5`. -/
theorem C3_amended_witness :
    get_or_insert_fb (new 2 : DynamicCacheLocal Nat Nat) 5 none
      = some (Except.error (DynamicCacheLocal.mk
          [(5, (0, (none : Option Nat)))] [(5, 0)] 2 0 0 1)) ∧
    (DynamicCacheLocal.mk [(5, (0, (none : Option Nat)))] [(5, 0)] 2 0 0 1).hits
      = (new 2 : DynamicCacheLocal Nat Nat).hits ∧
    (DynamicCacheLocal.mk [(5, (0, (none : Option Nat)))] [(5, 0)] 2 0 0 1).misses
      = ((new 2 : DynamicCacheLocal Nat Nat).misses + 1) % u64Mod :=
  C3_amended_producer_failure (by decide)

/-- Claim C4 counterexample: the claim quantifies over *every* state and key.
Run (a): if the key is already cached, two successive `get_or_insert` calls
are hits — `size` stays `1` instead of growing by one, and the second call
returns the cached `100`, not its producer's `300`.  Run (b): even for a key
absent from the map, with a full window of cached keys the second call's
eviction removes another cached value, so `size` after the second call equals
`size` before it instead of exceeding it by one. -/
theorem C4_counterexample :
    (get_or_insert (DynamicCacheLocal.mk [(7, (1, some 100))] [(7, 1), (7, 0)] 4 1 0 2
        : DynamicCacheLocal Nat Nat) 7 200
      = some (100, DynamicCacheLocal.mk [(7, (2, some 100))]
          [(7, 2), (7, 1), (7, 0)] 4 1 1 2)) ∧
    (get_or_insert (DynamicCacheLocal.mk [(7, (2, some 100))]
        [(7, 2), (7, 1), (7, 0)] 4 1 1 2 : DynamicCacheLocal Nat Nat) 7 300
      = some (100, DynamicCacheLocal.mk [(7, (3, some 100))]
          [(7, 3), (7, 2), (7, 1), (7, 0)] 4 1 2 2)) ∧
    (get_or_insert (DynamicCacheLocal.mk [(1, (1, some 11)), (2, (1, some 22))]
        [(1, 1), (2, 1)] 2 2 0 0 : DynamicCacheLocal Nat Nat) 0 10
      = some (10, DynamicCacheLocal.mk [(1, (1, some 11)), (0, (0, none))]
          [(0, 0), (1, 1)] 2 1 0 1)) ∧
    (get_or_insert (DynamicCacheLocal.mk [(1, (1, some 11)), (0, (0, none))]
        [(0, 0), (1, 1)] 2 1 0 1 : DynamicCacheLocal Nat Nat) 0 20
      = some (20, DynamicCacheLocal.mk [(0, (1, some 20))]
          [(0, 1), (0, 0)] 2 1 0 2)) ∧
    ¬((DynamicCacheLocal.mk [(0, (1, some 20))] [(0, 1), (0, 0)] 2 1 0 2
        : DynamicCacheLocal Nat Nat).size
      = (DynamicCacheLocal.mk [(1, (1, some 11)), (0, (0, none))]
          [(0, 0), (1, 1)] 2 1 0 1 : DynamicCacheLocal Nat Nat).size + 1) := by
  exact ⟨by decide, by decide, by decide, by decide, by decide⟩

/-- Claim C4 (amended): for every state in which the key is absent from the
key map and the window has at least two free slots (so neither call evicts),
two successive `get_or_insert` calls for that key make `size` after the
second call exactly one greater than before it, and the second call returns
the value produced by its own producer, which is also the value stored at
promotion (with the key's counter at 1). -/
theorem C4_amended_promotion {K V : Type} [DecidableEq K]
    {c : DynamicCacheLocal K V} {key : K}
    (habs : mapGet c.map key = none) (hroom : c.list.length + 2 ≤ c.mem_len)
    (v1 v2 : V) :
    ∃ c1 c2, get_or_insert c key v1 = some (v1, c1) ∧ c1.size = c.size ∧
      get_or_insert c1 key v2 = some (v2, c2) ∧ c2.size = c1.size + 1 ∧
      mapGet c2.map key = some (1, some v2) := by
  have hne1 : ¬(c.list.length = c.mem_len) := by omega
  have h01 : (0 + 1) % u32Mod = 1 := by simp [u32Mod]
  have htc1 : touch c key = (0, none, { c with map := mapSet c.map key (0, none) }) := by
    simp [touch, habs]
  have hme1 : maybeEvict { c with map := mapSet c.map key (0, none) }
      = some { c with map := mapSet c.map key (0, none) } := by
    show (if c.list.length = c.mem_len
        then evictBack { c with map := mapSet c.map key (0, none) }
        else some { c with map := mapSet c.map key (0, none) })
      = some { c with map := mapSet c.map key (0, none) }
    rw [if_neg hne1]
  have hget1 : get c key = some (none, DynamicCacheLocal.mk
      (mapSet c.map key (0, none)) ((key, 0) :: c.list)
      c.mem_len c.size c.hits ((c.misses + 1) % u64Mod)) := by
    simp only [get, htc1]
    simp only [hme1]
    rw [bump_none]
  have hins1 : insert (DynamicCacheLocal.mk
      (mapSet c.map key (0, none)) ((key, 0) :: c.list)
      c.mem_len c.size c.hits ((c.misses + 1) % u64Mod)) key v1
      = some (v1, DynamicCacheLocal.mk
        (mapSet c.map key (0, none)) ((key, 0) :: c.list)
        c.mem_len c.size c.hits ((c.misses + 1) % u64Mod)) := by
    simp [insert, mapGet_mapSet_self]
  have hgoi1 : get_or_insert c key v1 = some (v1, DynamicCacheLocal.mk
      (mapSet c.map key (0, none)) ((key, 0) :: c.list)
      c.mem_len c.size c.hits ((c.misses + 1) % u64Mod)) := by
    simp only [get_or_insert, hget1]
    exact hins1
  have htc2 : touch (DynamicCacheLocal.mk
      (mapSet c.map key (0, none)) ((key, 0) :: c.list)
      c.mem_len c.size c.hits ((c.misses + 1) % u64Mod)) key
      = (1, none, DynamicCacheLocal.mk
        (mapSet (mapSet c.map key (0, none)) key (1, none)) ((key, 0) :: c.list)
        c.mem_len c.size c.hits ((c.misses + 1) % u64Mod)) := by
    simp [touch, mapGet_mapSet_self, h01]
  have hne2 : ¬(((key, 0) :: c.list).length = c.mem_len) := by
    rw [List.length_cons]
    omega
  have hme2 : maybeEvict (DynamicCacheLocal.mk
      (mapSet (mapSet c.map key (0, none)) key (1, none)) ((key, 0) :: c.list)
      c.mem_len c.size c.hits ((c.misses + 1) % u64Mod))
      = some (DynamicCacheLocal.mk
        (mapSet (mapSet c.map key (0, none)) key (1, none)) ((key, 0) :: c.list)
        c.mem_len c.size c.hits ((c.misses + 1) % u64Mod)) := by
    show (if ((key, 0) :: c.list).length = c.mem_len then _ else _) = _
    rw [if_neg hne2]
  have hget2 : get (DynamicCacheLocal.mk
      (mapSet c.map key (0, none)) ((key, 0) :: c.list)
      c.mem_len c.size c.hits ((c.misses + 1) % u64Mod)) key
      = some (none, DynamicCacheLocal.mk
        (mapSet (mapSet c.map key (0, none)) key (1, none))
        ((key, 1) :: (key, 0) :: c.list)
        c.mem_len c.size c.hits (((c.misses + 1) % u64Mod + 1) % u64Mod)) := by
    simp only [get, htc2]
    simp only [hme2]
    rw [bump_none]
  have hins2 : insert (DynamicCacheLocal.mk
      (mapSet (mapSet c.map key (0, none)) key (1, none))
      ((key, 1) :: (key, 0) :: c.list)
      c.mem_len c.size c.hits (((c.misses + 1) % u64Mod + 1) % u64Mod)) key v2
      = some (v2, DynamicCacheLocal.mk
        (mapSet (mapSet (mapSet c.map key (0, none)) key (1, none)) key (1, some v2))
        ((key, 1) :: (key, 0) :: c.list)
        c.mem_len (c.size + 1) c.hits (((c.misses + 1) % u64Mod + 1) % u64Mod)) := by
    simp [insert, mapGet_mapSet_self]
  have hgoi2 : get_or_insert (DynamicCacheLocal.mk
      (mapSet c.map key (0, none)) ((key, 0) :: c.list)
      c.mem_len c.size c.hits ((c.misses + 1) % u64Mod)) key v2
      = some (v2, DynamicCacheLocal.mk
        (mapSet (mapSet (mapSet c.map key (0, none)) key (1, none)) key (1, some v2))
        ((key, 1) :: (key, 0) :: c.list)
        c.mem_len (c.size + 1) c.hits (((c.misses + 1) % u64Mod + 1) % u64Mod)) := by
    simp only [get_or_insert, hget2]
    exact hins2
  exact ⟨_, _, hgoi1, rfl, hgoi2, rfl, mapGet_mapSet_self _ _ _⟩

/-- Witness for the amended C4 from a fresh cache of window length 4. -/
theorem C4_amended_witness :
    ∃ c1 c2, get_or_insert (new 4 : DynamicCacheLocal Nat Nat) 0 10 = some (10, c1) ∧
      c1.size = (new 4 : DynamicCacheLocal Nat Nat).size ∧
      get_or_insert c1 0 20 = some (20, c2) ∧ c2.size = c1.size + 1 ∧
      mapGet c2.map 0 = some (1, some 20) :=
  @C4_amended_promotion Nat Nat _ (new 4) 0 rfl (by decide) 10 20

/-- Claim C5: in every reachable state, for every key absent from the key map
(never requested, or forgotten), the first `get_or_insert` call for that key
does not increase `size`: the produced value is returned as a fresh handle
but not stored in the map, whose entry for the key keeps counter 0 and no
value. -/
theorem C5_first_seen_not_cached {K V : Type} [DecidableEq K]
    {c : DynamicCacheLocal K V} {key : K}
    (hr : Reachable c) (habs : mapGet c.map key = none) (v : V) :
    ∃ c', get_or_insert c key v = some (v, c') ∧ c'.size ≤ c.size ∧
      mapGet c'.map key = some (0, none) := by
  have hwf := reachable_wf hr
  obtain ⟨ret, cg, cnt1, hget, _, _, hsz, _, _, hnone, _, _, _⟩ := get_spec_wf hwf key
  obtain ⟨h1, h2, h3⟩ := hnone habs
  subst h1
  subst h2
  refine ⟨cg, ?_, hsz, h3⟩
  simp only [get_or_insert, hget]
  simp [insert, h3]

/-- Witness for C5: first request for the key `3` on a fresh cache. -/
theorem C5_first_seen_witness :
    ∃ c', get_or_insert (new 4 : DynamicCacheLocal Nat Nat) 3 42 = some (42, c') ∧
      c'.size ≤ (new 4 : DynamicCacheLocal Nat Nat).size ∧
      mapGet c'.map 3 = some (0, none) :=
  C5_first_seen_not_cached (Reachable.base 4) rfl 42

/-- Claim C6: in every reachable state in which a key holds a cached value,
if `mem_len` subsequent `get` calls occur and none of them is for that key,
the key's map entry has been removed, so a later `get` for that key returns a
miss and re-creates the key in the seen-once state with counter 0. -/
theorem C6_window_aging {K V : Type} [DecidableEq K] {c : DynamicCacheLocal K V}
    {k : K} {cnt : Nat} {v : V}
    (hr : Reachable c) (hv : mapGet c.map k = some (cnt, some v))
    (ks : List K) (hlen : ks.length = c.mem_len) (hk : ∀ x ∈ ks, x ≠ k) :
    ∃ c', runGets ks c = some c' ∧ mapGet c'.map k = none ∧
      ∃ c'', get c' k = some (none, c'') ∧ mapGet c''.map k = some (0, none) := by
  have hwf := reachable_wf hr
  obtain ⟨c', hrun, hwf', hml', newl', oldsuf', hdec', hn', _, hor'⟩ :=
    runGets_suffix ks c [] c.list hwf hk (by simp) (by simp)
  have hsuf : oldsuf' = [] := by
    rcases hor' with h | h
    · exact h
    · have hle := hwf'.len_le
      rw [hdec'] at hle
      rw [hml', ← hlen] at hle
      simp at hle h
      have hz : oldsuf'.length = 0 := by omega
      exact List.length_eq_zero.mp hz
  subst hsuf
  rw [List.append_nil] at hdec'
  have hknot : mapGet c'.map k = none := by
    rcases hmk : mapGet c'.map k with _ | ⟨cntk, vk⟩
    · rfl
    · obtain ⟨_, hne, _⟩ := hwf'.aligned k cntk vk hmk
      rw [← mem_listKeys_iff, hdec'] at hne
      exfalso
      obtain ⟨e, he, heq⟩ := List.mem_map.mp hne
      exact hn' e he heq
  refine ⟨c', hrun, hknot, ?_⟩
  obtain ⟨ret, c'', cnt1, hget, _, _, _, _, _, hnone, _, _, _⟩ :=
    get_spec_wf hwf' k
  obtain ⟨h1, h2, h3⟩ := hnone hknot
  subst h1
  subst h2
  exact ⟨c'', hget, h3⟩

/-- Witness for C6: the key `7` is cached with window length 4; after the
four requests `1, 2, 3, 4` it is gone, and a fifth request for `7` misses
and re-creates it with counter 0. -/
theorem C6_window_aging_witness :
    ∃ c', runGets [1, 2, 3, 4] (DynamicCacheLocal.mk [(7, (1, some 100))]
        [(7, 1), (7, 0)] 4 1 0 2 : DynamicCacheLocal Nat Nat) = some c' ∧
      mapGet c'.map 7 = none ∧
      ∃ c'', get c' 7 = some (none, c'') ∧ mapGet c''.map 7 = some (0, none) := by
  have s0 : Reachable (new 4 : DynamicCacheLocal Nat Nat) := Reachable.base 4
  have s1 : Reachable (DynamicCacheLocal.mk
      [(7, (0, (none : Option Nat)))] [(7, 0)] 4 0 0 1) :=
    Reachable.step (Op.get_or_insert 7 100) s0 (by decide)
  have s2 : Reachable (DynamicCacheLocal.mk
      [(7, (1, some 100))] [(7, 1), (7, 0)] 4 1 0 2) :=
    Reachable.step (Op.get_or_insert 7 100) s1 (by decide)
  exact @C6_window_aging Nat Nat _
    (DynamicCacheLocal.mk [(7, (1, some 100))] [(7, 1), (7, 0)] 4 1 0 2) 7 1 100
    s2 (by decide) [1, 2, 3, 4] (by decide) (by decide)

/-- Claim C7: in every reachable state the window sequence holds at most
`mem_len` entries, and every `get` call pushes exactly one entry to the
front of the window, first evicting exactly one entry from the back if and
only if the window already held `mem_len` entries. -/
theorem C7_window_bound {K V : Type} [DecidableEq K] {c : DynamicCacheLocal K V}
    (hr : Reachable c) :
    c.list.length ≤ c.mem_len ∧
    ∀ key ret c', get c key = some (ret, c') →
      ∃ s, c'.list = (key, s) ::
          (if c.list.length = c.mem_len then c.list.dropLast else c.list) ∧
        c'.list.length = (if c.list.length = c.mem_len
          then c.list.length else c.list.length + 1) := by
  have hwf := reachable_wf hr
  refine ⟨hwf.len_le, ?_⟩
  intro key ret c' hget
  obtain ⟨ret0, c0, cnt1, hget0, _, _, _, hlist0, _⟩ := get_spec_wf hwf key
  rw [hget0] at hget
  have hpair := Option.some.inj hget
  have hc : c0 = c' := congrArg Prod.snd hpair
  subst hc
  refine ⟨cnt1, hlist0, ?_⟩
  rw [hlist0]
  by_cases hfull : c.list.length = c.mem_len
  · rw [if_pos hfull, if_pos hfull]
    simp [List.length_dropLast]
    have h2 := hwf.two_le
    omega
  · rw [if_neg hfull, if_neg hfull]
    simp

/-- Witness for C7 on a reachable state with a non-full window. -/
theorem C7_window_bound_witness :
    ∃ s, (DynamicCacheLocal.mk [(7, (1, some 100)), (9, (0, none))]
        [(9, 0), (7, 1), (7, 0)] 4 1 0 3 : DynamicCacheLocal Nat Nat).list
      = (9, s) :: (if (DynamicCacheLocal.mk [(7, (1, some 100))] [(7, 1), (7, 0)] 4 1 0 2
          : DynamicCacheLocal Nat Nat).list.length
        = (DynamicCacheLocal.mk [(7, (1, some 100))] [(7, 1), (7, 0)] 4 1 0 2
          : DynamicCacheLocal Nat Nat).mem_len
        then (DynamicCacheLocal.mk [(7, (1, some 100))] [(7, 1), (7, 0)] 4 1 0 2
          : DynamicCacheLocal Nat Nat).list.dropLast
        else (DynamicCacheLocal.mk [(7, (1, some 100))] [(7, 1), (7, 0)] 4 1 0 2
          : DynamicCacheLocal Nat Nat).list) ∧
      (DynamicCacheLocal.mk [(7, (1, some 100)), (9, (0, none))]
        [(9, 0), (7, 1), (7, 0)] 4 1 0 3 : DynamicCacheLocal Nat Nat).list.length
      = (if (DynamicCacheLocal.mk [(7, (1, some 100))] [(7, 1), (7, 0)] 4 1 0 2
          : DynamicCacheLocal Nat Nat).list.length
        = (DynamicCacheLocal.mk [(7, (1, some 100))] [(7, 1), (7, 0)] 4 1 0 2
          : DynamicCacheLocal Nat Nat).mem_len
        then (DynamicCacheLocal.mk [(7, (1, some 100))] [(7, 1), (7, 0)] 4 1 0 2
          : DynamicCacheLocal Nat Nat).list.length
        else (DynamicCacheLocal.mk [(7, (1, some 100))] [(7, 1), (7, 0)] 4 1 0 2
          : DynamicCacheLocal Nat Nat).list.length + 1) := by
  have s0 : Reachable (new 4 : DynamicCacheLocal Nat Nat) := Reachable.base 4
  have s1 : Reachable (DynamicCacheLocal.mk
      [(7, (0, (none : Option Nat)))] [(7, 0)] 4 0 0 1) :=
    Reachable.step (Op.get_or_insert 7 100) s0 (by decide)
  have s2 : Reachable (DynamicCacheLocal.mk
      [(7, (1, some 100))] [(7, 1), (7, 0)] 4 1 0 2) :=
    Reachable.step (Op.get_or_insert 7 100) s1 (by decide)
  exact (C7_window_bound s2).2 9 none _ (by decide)

/-- Claim C8: the internal fatal-assertion branches are unreachable — in
every reachable state every window key is present in the key map, so `get`
and `set_mem_len` never hit their `expect` panics (modeled as `none`), and
`insert`'s map lookup succeeds whenever `insert` is called, as in
`get_or_insert`, right after a `get` for the same key returned a miss. -/
theorem C8_no_panic {K V : Type} [DecidableEq K] {c : DynamicCacheLocal K V}
    (hr : Reachable c) :
    (∀ k, k ∈ listKeys c.list → k ∈ mapKeys c.map) ∧
    (∀ key, (get c key).isSome) ∧
    (∀ n, (set_mem_len c n).isSome) ∧
    (∀ key c' v, get c key = some (none, c') → (insert c' key v).isSome) := by
  have hwf := reachable_wf hr
  refine ⟨hwf.keys_sub, ?_, ?_, ?_⟩
  · intro key
    obtain ⟨ret, c0, cnt1, hget, _⟩ := get_spec_wf hwf key
    rw [hget]
    rfl
  · intro n
    obtain ⟨c0, hsml, _⟩ := set_mem_len_spec hwf n
    rw [hsml]
    rfl
  · intro key c' v hget
    obtain ⟨ret0, c0, cnt1, hget0, _, _, _, _, _, hnone, hsome, _, _⟩ :=
      get_spec_wf hwf key
    rw [hget0] at hget
    have hpair := Option.some.inj hget
    have hc0 : c0 = c' := congrArg Prod.snd hpair
    subst hc0
    rcases hm : mapGet c.map key with _ | ⟨cnt, val⟩
    · obtain ⟨_, _, h3⟩ := hnone hm
      exact insert_total h3 v
    · obtain ⟨_, _, h3⟩ := hsome cnt val hm
      exact insert_total h3 v

/-- Witness for C8 on a reachable state: a window key is in the map, a `get`
and a `set_mem_len` succeed, and `insert` succeeds right after a miss. -/
theorem C8_no_panic_witness :
    (7 ∈ mapKeys (DynamicCacheLocal.mk [(7, (1, some 100))] [(7, 1), (7, 0)] 4 1 0 2
      : DynamicCacheLocal Nat Nat).map) ∧
    (get (DynamicCacheLocal.mk [(7, (1, some 100))] [(7, 1), (7, 0)] 4 1 0 2
      : DynamicCacheLocal Nat Nat) 3).isSome ∧
    (set_mem_len (DynamicCacheLocal.mk [(7, (1, some 100))] [(7, 1), (7, 0)] 4 1 0 2
      : DynamicCacheLocal Nat Nat) 1).isSome ∧
    (insert (DynamicCacheLocal.mk [(7, (1, some 100)), (9, (0, none))]
      [(9, 0), (7, 1), (7, 0)] 4 1 0 3 : DynamicCacheLocal Nat Nat) 9 5).isSome := by
  have s0 : Reachable (new 4 : DynamicCacheLocal Nat Nat) := Reachable.base 4
  have s1 : Reachable (DynamicCacheLocal.mk
      [(7, (0, (none : Option Nat)))] [(7, 0)] 4 0 0 1) :=
    Reachable.step (Op.get_or_insert 7 100) s0 (by decide)
  have s2 : Reachable (DynamicCacheLocal.mk
      [(7, (1, some 100))] [(7, 1), (7, 0)] 4 1 0 2) :=
    Reachable.step (Op.get_or_insert 7 100) s1 (by decide)
  have H := C8_no_panic s2
  exact ⟨H.1 7 (by decide), H.2.1 3, H.2.2.1 1, H.2.2.2 9 _ 5 (by decide)⟩

/-- Claim C9 counterexample: the request counter is a u32 that wraps modulo
`2 ^ 32`.  The state `fState (2 ^ 32)` is reachable (by `2 ^ 32` consecutive
`get` calls for the key `0` on `new 2`), the key `0` is present with counter
`2 ^ 32 - 1`, and one further `get` — an operation after which the key is
still in the map — makes the counter `0 < 2 ^ 32 - 1`.  So the counter is
not monotonically non-decreasing. -/
theorem C9_counterexample :
    Reachable (fState u32Mod) ∧
    applyOp (Op.get 0) (fState u32Mod) = some (fState (u32Mod + 1)) ∧
    mapGet (fState u32Mod).map 0 = some (u32Mod - 1, (none : Option Nat)) ∧
    mapGet (fState (u32Mod + 1)).map 0 = some (0, (none : Option Nat)) ∧
    (0 : Nat) < u32Mod - 1 := by
  refine ⟨reach_fState u32Mod (by simp [u32Mod]) (le_refl _),
    fState_step (by simp [u32Mod]) (le_refl _), by decide, by decide, by decide⟩

/-- Claim C9 (amended): for every key present in the key map, as long as the
key stays in the map, no operation makes its u32 request counter smaller —
provided the counter is below `2 ^ 32 - 1`; at `2 ^ 32 - 1` the next request
for the key wraps the counter to 0. -/
theorem C9_amended_monotone {K V : Type} [DecidableEq K]
    {c c' : DynamicCacheLocal K V} {op : Op K V} {k : K} {cnt cnt' : Nat}
    {v v' : Option V}
    (hr : Reachable c) (hstep : applyOp op c = some c')
    (h1 : mapGet c.map k = some (cnt, v)) (h2 : mapGet c'.map k = some (cnt', v'))
    (hlt : cnt < u32Mod - 1) : cnt ≤ cnt' := by
  have hwf := reachable_wf hr
  have hmod : (cnt + 1) % u32Mod = cnt + 1 := by
    simp only [u32Mod] at *
    omega
  cases op with
  | get key =>
    obtain ⟨ret, c0, cnt1, hget, _, _, _, _, hsame, hnone, hsome, _, _⟩ :=
      get_spec_wf hwf key
    simp only [applyOp, hget, Option.map_some'] at hstep
    cases hstep
    by_cases hkk : k = key
    · subst hkk
      obtain ⟨hc1, _, h3⟩ := hsome cnt v h1
      have hpair := Option.some.inj (h3.symm.trans h2)
      simp only [Prod.mk.injEq] at hpair
      rw [← hpair.1, hc1, hmod]
      omega
    · rcases hsame k hkk with h | h
      · rw [h] at h2
        have hpair := Option.some.inj (h1.symm.trans h2)
        simp only [Prod.mk.injEq] at hpair
        omega
      · rw [h2] at h
        exact Option.noConfusion h
  | insert key v0 =>
    rcases hm : mapGet c.map key with _ | ⟨cnt2, val2⟩
    · simp [applyOp, insert, hm] at hstep
    · obtain ⟨r, c'', hins, _, _, _, _, _, _, hall, _, _, _⟩ := insert_spec hwf hm v0
      simp only [applyOp, hins, Option.map_some'] at hstep
      cases hstep
      obtain ⟨v1, hv1⟩ := hall k cnt v h1
      have hpair := Option.some.inj (hv1.symm.trans h2)
      simp only [Prod.mk.injEq] at hpair
      omega
  | get_or_insert key v0 =>
    obtain ⟨ret, cg, cnt1, hget, hwfg, _, _, _, hsame, hnone, hsome, _, _⟩ :=
      get_spec_wf hwf key
    rcases ret with _ | w
    · simp only [applyOp, get_or_insert, hget] at hstep
      rcases hmv : mapGet cg.map key with _ | ⟨cnt2, val2⟩
      · simp [insert, hmv] at hstep
      · obtain ⟨r, c'', hins, _, _, _, _, _, hne_pres, hall, _, _, _⟩ :=
          insert_spec hwfg hmv v0
        rw [hins] at hstep
        simp only [Option.map_some'] at hstep
        cases hstep
        by_cases hkk : k = key
        · subst hkk
          obtain ⟨hc1, hrv, h3⟩ := hsome cnt v h1
          subst hrv
          obtain ⟨v1, hv1⟩ := hall k cnt1 none (by rw [h3])
          have hpair := Option.some.inj (hv1.symm.trans h2)
          simp only [Prod.mk.injEq] at hpair
          rw [← hpair.1, hc1, hmod]
          omega
        · rcases hsame k hkk with hpg | hpg
          · obtain ⟨v1, hv1⟩ := hall k cnt v (by rw [hpg, h1])
            have hpair := Option.some.inj (hv1.symm.trans h2)
            simp only [Prod.mk.injEq] at hpair
            omega
          · have hpres := hne_pres k hkk
            rw [hpres, hpg] at h2
            exact Option.noConfusion h2
    · simp only [applyOp, get_or_insert, hget, Option.map_some'] at hstep
      cases hstep
      by_cases hkk : k = key
      · subst hkk
        obtain ⟨hc1, _, h3⟩ := hsome cnt v h1
        have hpair := Option.some.inj (h3.symm.trans h2)
        simp only [Prod.mk.injEq] at hpair
        rw [← hpair.1, hc1, hmod]
        omega
      · rcases hsame k hkk with h | h
        · rw [h] at h2
          have hpair := Option.some.inj (h1.symm.trans h2)
          simp only [Prod.mk.injEq] at hpair
          omega
        · rw [h2] at h
          exact Option.noConfusion h
  | set_mem_len n =>
    obtain ⟨c'', hsml, _, _, _, _, _, hsame⟩ := set_mem_len_spec hwf n
    simp only [applyOp] at hstep
    rw [hsml] at hstep
    cases hstep
    rcases hsame k with h | h
    · rw [h] at h2
      have hpair := Option.some.inj (h1.symm.trans h2)
      simp only [Prod.mk.injEq] at hpair
      omega
    · rw [h2] at h
      exact Option.noConfusion h
  | clear_cache =>
    simp only [applyOp] at hstep
    cases hstep
    simp [clear_cache, mapGet] at h2
  | reset_metrics =>
    simp only [applyOp] at hstep
    cases hstep
    have hpair := Option.some.inj (h1.symm.trans h2)
    simp only [Prod.mk.injEq] at hpair
    omega

/-- Witness for the amended C9: one `get` for the key `7` at counter 0
yields counter 1 in the successor state. -/
theorem C9_amended_witness :
    mapGet (DynamicCacheLocal.mk [(7, (0, (none : Option Nat)))] [(7, 0)] 4 0 0 1
      : DynamicCacheLocal Nat Nat).map 7 = some (0, none) ∧
    mapGet (DynamicCacheLocal.mk [(7, (1, (none : Option Nat)))]
      [(7, 1), (7, 0)] 4 0 0 2 : DynamicCacheLocal Nat Nat).map 7 = some (1, none) ∧
    (0 : Nat) ≤ 1 := by
  have s0 : Reachable (new 4 : DynamicCacheLocal Nat Nat) := Reachable.base 4
  have s1 : Reachable (DynamicCacheLocal.mk
      [(7, (0, (none : Option Nat)))] [(7, 0)] 4 0 0 1) :=
    Reachable.step (Op.get_or_insert 7 100) s0 (by decide)
  refine ⟨by decide, by decide, ?_⟩
  exact @C9_amended_monotone Nat Nat _
    (DynamicCacheLocal.mk [(7, (0, (none : Option Nat)))] [(7, 0)] 4 0 0 1)
    (DynamicCacheLocal.mk [(7, (1, (none : Option Nat)))] [(7, 1), (7, 0)] 4 0 0 2)
    (Op.get 7) 7 0 1 (none : Option Nat) (none : Option Nat)
    s1 (by decide) (by decide) (by decide) (by decide)

/-- Claim C10: for every requested window length (including 0 and 1), `new`,
`with_hasher` and `set_mem_len` store the clamp of the request to the range
`[2, 2 ^ 32 - 1]` rather than rejecting it; in every reachable state
`2 ≤ mem_len ≤ 2 ^ 32 - 1` (the value returned by the `mem_len` accessor),
and `set_mem_len` never fails on a reachable state. -/
theorem C10_clamping {K V : Type} [DecidableEq K] :
    (∀ n : Nat, clampLen n = max 2 (min n 4294967295)) ∧
    (∀ n : Nat, (new n : DynamicCacheLocal K V).mem_len = clampLen n) ∧
    (∀ (S : Type) (hb : S) (n : Nat),
      (with_hasher n hb : DynamicCacheLocal K V).mem_len = clampLen n) ∧
    (∀ (c c' : DynamicCacheLocal K V) (n : Nat), set_mem_len c n = some c' →
      c'.mem_len = clampLen n) ∧
    (∀ c : DynamicCacheLocal K V, Reachable c →
      (2 ≤ c.mem_len ∧ c.mem_len ≤ 4294967295) ∧
      ∀ n, (set_mem_len c n).isSome) := by
  refine ⟨fun n => by simp [clampLen, u32Mod], fun n => rfl, fun S hb n => rfl,
    ?_, ?_⟩
  · intro c c' n h
    simp only [set_mem_len] at h
    split at h
    · exact Option.noConfusion h
    · cases h
      rfl
  · intro c hr
    have hwf := reachable_wf hr
    have h1 := hwf.two_le
    have h2 := hwf.le_max
    simp only [u32Mod] at h2
    refine ⟨⟨h1, by omega⟩, ?_⟩
    intro n
    obtain ⟨c0, hsml, _⟩ := set_mem_len_spec hwf n
    rw [hsml]
    rfl

/-- Witness for C10: window lengths 0 and 1 are clamped to 2 by `new` and by
`set_mem_len`, and the bounds hold on a freshly built state. -/
theorem C10_clamping_witness :
    clampLen 0 = 2 ∧ clampLen 1 = 2 ∧
    (new 0 : DynamicCacheLocal Nat Nat).mem_len = clampLen 0 ∧
    (with_hasher 1 () : DynamicCacheLocal Nat Nat).mem_len = clampLen 1 ∧
    (DynamicCacheLocal.mk [] [] 2 0 0 0 : DynamicCacheLocal Nat Nat).mem_len
      = clampLen 1 ∧
    (2 ≤ (new 0 : DynamicCacheLocal Nat Nat).mem_len ∧
      (new 0 : DynamicCacheLocal Nat Nat).mem_len ≤ 4294967295) := by
  have H := C10_clamping (K := Nat) (V := Nat)
  have hsml : set_mem_len (new 5 : DynamicCacheLocal Nat Nat) 1
      = some (DynamicCacheLocal.mk [] [] 2 0 0 0) := by
    have hsh : shrink (new 5 : DynamicCacheLocal Nat Nat) (clampLen 1)
        = some (new 5) := by
      rw [shrink.eq_def, dif_neg (by decide)]
    simp only [set_mem_len, hsh]
    rfl
  refine ⟨by decide, by decide, H.2.1 0, H.2.2.1 Unit () 1, ?_,
    (H.2.2.2.2 _ (Reachable.base 0)).1⟩
  exact H.2.2.2.1 (new 5) (DynamicCacheLocal.mk [] [] 2 0 0 0) 1 hsml

end DynLru
